import Mathlib

/-!
Bus-bridge firmware of the Commodore PET clone (`fw/main.c`).

A shallow embedding of `pi_write`, `set_cpu`, `copy_rom`, `init` and the
`main` loop.  The SDK calls the firmware makes (`gpio_put`, `gpio_get`,
`spi_write_blocking`, `sleep_ms`, `tuh_task`, the set-up calls) are recorded,
in program order, in an event trace carried by the machine state.  The peer on
the other side of the handshake is an environment: it decides what every read
of the DONE line returns, as a function of everything that happened so far.

Busy-wait loops may spin for ever, so every operation takes a step budget
(`fuel`, the largest number of polls one busy-wait may make) and yields a
`Result`: `returned s` when the C function returns in state `s`, `unfinished s`
when the budget ran out with the machine still inside the function, in state `s`.

Machine integers are natural numbers reduced modulo `2 ^ width` at the places
where C converts or wraps them.
-/

namespace PetFw

/-! ## Pins -/

/-- The macro `PENDING_B_PIN`. -/
abbrev PENDING_B_PIN : Nat := 6
/-- The macro `DONE_B_PIN`. -/
abbrev DONE_B_PIN : Nat := 7
/-- The macro `SPI_SCK_PIN`. -/
abbrev SPI_SCK_PIN : Nat := 2
/-- The macro `SPI_TX_PIN`. -/
abbrev SPI_TX_PIN : Nat := 3
/-- The macro `SPI_RX_PIN`. -/
abbrev SPI_RX_PIN : Nat := 4
/-- The macro `SPI_CSN_PIN`. -/
abbrev SPI_CSN_PIN : Nat := 5

/-! ## Events, state, environment -/

/-- One call into the SDK or a collaborator, with the arguments that matter
(for `gpio_get`, with the level that was read). -/
inductive Event where
  | stdio_init_all
  | gpio_init (gpio : Nat)
  | gpio_set_dir (gpio : Nat) (out : Bool)
  | gpio_put (gpio : Nat) (value : Bool)
  | gpio_get (gpio : Nat) (value : Bool)
  | spi_init (baudrate : Nat)
  | gpio_set_function (gpio : Nat)
  | spi_write_blocking (src : List Nat)
  | sleep_ms (ms : Nat)
  | usb_init
  | video_init
  | tuh_task
  deriving DecidableEq, Repr

/-- The firmware's mutable state: the global `success`, the output level of
`PENDING_B_PIN`, the global array `key_matrix`, and the trace of events so far
(oldest first). -/
structure State where
  success : Nat
  pending_b : Bool
  key_matrix : List Nat
  trace : List Event
  deriving DecidableEq, Repr

/-- What the firmware cannot control: the level of `DONE_B_PIN` the peer shows
at a read, given the events so far, and what `tuh_task` leaves in `key_matrix`. -/
structure Env where
  done_b : List Event → Bool
  usb : List Event → List Nat → List Nat

/-- Outcome of running a C function under a step budget. -/
inductive Result where
  | returned (s : State)
  | unfinished (s : State)
  deriving DecidableEq, Repr

/-- Sequencing: continue with `f` when the first part returned. -/
def Result.bind (r : Result) (f : State → Result) : Result :=
  match r with
  | .returned s => f s
  | .unfinished s => .unfinished s

/-- The state a result carries. -/
def Result.state : Result → State
  | .returned s => s
  | .unfinished s => s

/-- Record one event. -/
def emit (e : Event) (s : State) : State :=
  { s with trace := s.trace ++ [e] }

/-! ## SDK calls -/

/-- The call `gpio_put(gpio, value)`: drives the pin, which for `PENDING_B_PIN`
changes the level the state tracks. -/
def gpio_put (gpio : Nat) (value : Bool) (s : State) : State :=
  emit (Event.gpio_put gpio value)
    { s with pending_b := if gpio = PENDING_B_PIN then value else s.pending_b }

/-- The call `gpio_get(gpio)`: the level comes from the peer (the firmware only
ever reads `DONE_B_PIN`). -/
def gpio_get (env : Env) (gpio : Nat) (s : State) : Bool × State :=
  let v := env.done_b s.trace
  (v, emit (Event.gpio_get gpio v) s)

/-- The call `spi_write_blocking(SPI_INSTANCE, src, len)`: sends the first
`len` bytes of `src`. -/
def spi_write_blocking (src : List Nat) (len : Nat) (s : State) : State :=
  emit (Event.spi_write_blocking (src.take len)) s

/-- The call `sleep_ms(ms)`. -/
def sleep_ms (ms : Nat) (s : State) : State :=
  emit (Event.sleep_ms ms) s

/-- The call `tuh_task()`: the USB host stack may rewrite `key_matrix`. -/
def tuh_task (env : Env) (s : State) : State :=
  emit Event.tuh_task { s with key_matrix := env.usb s.trace s.key_matrix }

/-! ## `pi_write` -/

/-- A busy-wait on `DONE_B_PIN` that spins while the pin reads `level`:
`poll_while env false` is `while(!gpio_get(DONE_B_PIN));` and
`poll_while env true` is `while(gpio_get(DONE_B_PIN));`.  The budget counts
polls. -/
def poll_while (env : Env) (level : Bool) : Nat → State → Result
  | 0, s => .unfinished s
  | fuel + 1, s =>
    let r := gpio_get env DONE_B_PIN s
    if r.1 = level then poll_while env level fuel r.2 else .returned r.2

/-- The local array `bytes` of `pi_write`: `{ 0x84, addr_hi, addr_lo, data }`,
with `addr` a `uint16_t` and `data`, `addr_hi`, `addr_lo` of type `uint8_t`. -/
def pi_write_bytes (addr data : Nat) : List Nat :=
  let addr := addr % 2 ^ 16
  let data := data % 2 ^ 8
  let addr_hi := (addr >>> 8) % 2 ^ 8
  let addr_lo := (addr &&& 0xff) % 2 ^ 8
  [0x84, addr_hi, addr_lo, data]

/-- The function `pi_write(uint16_t addr, uint8_t data)`; `sizeof(bytes)` is 4
and `success` is a `uint32_t`. -/
def pi_write (env : Env) (fuel : Nat) (addr data : Nat) (s : State) : Result :=
  let bytes := pi_write_bytes addr data
  let s := gpio_put PENDING_B_PIN false s
  (poll_while env false fuel s).bind fun s =>
  let s := spi_write_blocking bytes 4 s
  (poll_while env true fuel s).bind fun s =>
  let s := gpio_put PENDING_B_PIN true s
  .returned { s with success := (s.success + 1) % 2 ^ 32 }

/-! ## `set_cpu`, `copy_rom` -/

/-- The function `set_cpu(bool reset, bool run)`. -/
def set_cpu (env : Env) (fuel : Nat) (reset run : Bool) (s : State) : Result :=
  (pi_write env fuel 0xE80F
    ((if reset then 0 else (1 <<< 0)) ||| (if run then (1 <<< 1) else 0)) s).bind fun s =>
  .returned (sleep_ms 1 s)

/-- The loop of `copy_rom`: `for (int addr = start; addr < end; addr++)
pi_write(addr, *pSrc++);`.  `addr` and `end_` are C `int`s that stay below
`2 ^ 17`, `pSrc` is the offset of the read pointer into `pRom`; the first
argument bounds the iterations left (`end_ - addr` of them are needed). -/
def copy_rom_loop (env : Env) (fuel : Nat) (pRom : List Nat) (end_ : Nat) :
    Nat → Nat → Nat → State → Result
  | 0, addr, _, s => if addr < end_ then .unfinished s else .returned s
  | n + 1, addr, pSrc, s =>
    if addr < end_ then
      (pi_write env fuel addr (pRom.getD pSrc 0) s).bind
        (copy_rom_loop env fuel pRom end_ n (addr + 1) (pSrc + 1))
    else .returned s

/-- The function `copy_rom(pRom, uint16_t start, uint16_t byteLength)`. -/
def copy_rom (env : Env) (fuel : Nat) (pRom : List Nat) (start byteLength : Nat)
    (s : State) : Result :=
  let start := start % 2 ^ 16
  let byteLength := byteLength % 2 ^ 16
  let end_ := start + byteLength
  copy_rom_loop env fuel pRom end_ (end_ - start) start 0 s

/-! ## `init` and `main` -/

/-- The six ROM images of `roms.h` (their bytes come from headers that are
build-time data). -/
structure Roms where
  rom_chars_8800 : List Nat
  rom_basic_b000 : List Nat
  rom_basic_c000 : List Nat
  rom_basic_d000 : List Nat
  rom_edit_e000 : List Nat
  rom_kernal_f000 : List Nat

/-- The pin and SPI set-up at the head of `init`, up to the first `set_cpu`. -/
def init_setup (s : State) : State :=
  let s := emit Event.stdio_init_all s
  let s := emit (Event.gpio_init PENDING_B_PIN) s
  let s := emit (Event.gpio_set_dir PENDING_B_PIN true) s
  let s := gpio_put PENDING_B_PIN true s
  let s := sleep_ms 1 s
  let s := emit (Event.gpio_init DONE_B_PIN) s
  let s := emit (Event.gpio_set_dir DONE_B_PIN false) s
  let s := emit (Event.spi_init (1000 * 1000)) s
  let s := emit (Event.gpio_set_function SPI_SCK_PIN) s
  let s := emit (Event.gpio_set_function SPI_TX_PIN) s
  let s := emit (Event.gpio_set_function SPI_RX_PIN) s
  emit (Event.gpio_set_function SPI_CSN_PIN) s

/-- The bus traffic of `init`: the two `set_cpu` calls, the six `copy_rom`
calls (`sizeof` of an array is its length), the two closing `set_cpu` calls. -/
def init_bus (env : Env) (fuel : Nat) (roms : Roms) (s : State) : Result :=
  (set_cpu env fuel true false s).bind fun s =>
  (set_cpu env fuel false true s).bind fun s =>
  (copy_rom env fuel roms.rom_chars_8800 0x8800 roms.rom_chars_8800.length s).bind fun s =>
  (copy_rom env fuel roms.rom_basic_b000 0xb000 roms.rom_basic_b000.length s).bind fun s =>
  (copy_rom env fuel roms.rom_basic_c000 0xc000 roms.rom_basic_c000.length s).bind fun s =>
  (copy_rom env fuel roms.rom_basic_d000 0xd000 roms.rom_basic_d000.length s).bind fun s =>
  (copy_rom env fuel roms.rom_edit_e000 0xe000 roms.rom_edit_e000.length s).bind fun s =>
  (copy_rom env fuel roms.rom_kernal_f000 0xf000 roms.rom_kernal_f000.length s).bind fun s =>
  (set_cpu env fuel true false s).bind fun s =>
  set_cpu env fuel false true s

/-- The function `init()`. -/
def init (env : Env) (fuel : Nat) (roms : Roms) (s : State) : Result :=
  init_bus env fuel roms (init_setup s)

/-- The inner loop of `main`: `for (uint8_t row = 0; row < sizeof(key_matrix);
row++) pi_write(0xe800 + row, key_matrix[row]);`.  `row` is a `uint8_t`, so
`row++` wraps at 256.  The first argument bounds the loop tests made. -/
def key_rows (env : Env) (fuel : Nat) : Nat → Nat → State → Result
  | 0, _, s => .unfinished s
  | n + 1, row, s =>
    if row < s.key_matrix.length then
      (pi_write env fuel (0xe800 + row) (s.key_matrix.getD row 0) s).bind
        (key_rows env fuel n ((row + 1) % 2 ^ 8))
    else .returned s

/-- One iteration of `while (true)` in `main`: `tuh_task()`, then the row loop.
The budget `fuel` bounds the polls of each busy-wait and the loop tests of the
row loop. -/
def main_iteration (env : Env) (fuel : Nat) (s : State) : Result :=
  let s := tuh_task env s
  key_rows env fuel fuel 0 s

/-- The first `n` iterations of `while (true)` in `main`; `returned s` here means
the `n`-th iteration has ended in state `s`. -/
def main_loop (env : Env) (fuel : Nat) : Nat → State → Result
  | 0, s => .returned s
  | n + 1, s => (main_iteration env fuel s).bind (main_loop env fuel n)

/-- The function `main()`, observed up to the end of the `n`-th loop iteration
(the function itself never returns). -/
def main (env : Env) (fuel : Nat) (roms : Roms) (n : Nat) (s : State) : Result :=
  (init env fuel roms s).bind fun s =>
  let s := emit Event.usb_init s
  let s := emit Event.video_init s
  main_loop env fuel n s

/-! ## Observations on traces -/

/-- The bytes sent on the serial link, in order. -/
def linkBytes : List Event → List Nat
  | [] => []
  | Event.spi_write_blocking src :: es => src ++ linkBytes es
  | _ :: es => linkBytes es

/-- The frames sent on the serial link (one per `spi_write_blocking` call). -/
def frames : List Event → List (List Nat)
  | [] => []
  | Event.spi_write_blocking src :: es => src :: frames es
  | _ :: es => frames es

/-- The peer's reading of a frame: `[0x84, hi, lo, d]` is the write of `d` to
address `hi * 256 + lo`. -/
def decodeFrame : List Nat → Option (Nat × Nat)
  | [op, hi, lo, d] => if op = 0x84 then some (hi * 256 + lo, d) else none
  | _ => none

/-- The bus writes a trace carries, as `(address, data)`, in order. -/
def busWrites (tr : List Event) : List (Nat × Nat) :=
  (frames tr).filterMap decodeFrame

/-- The event trace of one completed handshake around the frame `bytes`, with
`j` reads of DONE low before the read that found it high and `k` reads of DONE
high before the read that found it low. -/
def window (j k : Nat) (bytes : List Nat) : List Event :=
  Event.gpio_put PENDING_B_PIN false
    :: (List.replicate j (Event.gpio_get DONE_B_PIN false)
    ++ Event.gpio_get DONE_B_PIN true
    :: Event.spi_write_blocking bytes
    :: (List.replicate k (Event.gpio_get DONE_B_PIN true)
    ++ [Event.gpio_get DONE_B_PIN false, Event.gpio_put PENDING_B_PIN true]))

/-- Where a handshake stands: no request out, request out and no frame sent
yet, request out and the frame sent. -/
inductive Phase where
  | idle
  | requested
  | framed
  deriving DecidableEq, Repr

/-- One event seen by a monitor of the handshake.  Driving `PENDING_B_PIN` low
is allowed only when idle, a frame only after a request that has had no frame
yet, driving `PENDING_B_PIN` high only after the frame; every other event
leaves the phase alone. -/
def handshakeStep (p : Phase) (e : Event) : Option Phase :=
  match e with
  | Event.gpio_put gpio value =>
    if gpio = PENDING_B_PIN then
      match p, value with
      | Phase.idle, false => some Phase.requested
      | Phase.framed, true => some Phase.idle
      | _, _ => none
    else some p
  | Event.spi_write_blocking _ =>
    match p with
    | Phase.requested => some Phase.framed
    | _ => none
  | _ => some p

/-- The monitor run over a trace: `none` when some event broke the discipline,
otherwise the phase reached. -/
def handshake : Phase → List Event → Option Phase
  | p, [] => some p
  | p, e :: es => (handshakeStep p e).bind fun q => handshake q es

/-- The events of the handshake proper: writes to `PENDING_B_PIN` and frames. -/
def isHandshakeEvent : Event → Bool
  | Event.gpio_put gpio _ => decide (gpio = PENDING_B_PIN)
  | Event.spi_write_blocking _ => true
  | _ => false

/-- A trace cut down to its handshake events. -/
def hsEvents (tr : List Event) : List Event :=
  tr.filter isHandshakeEvent

/-- The handshake events of one write: request, frame, release. -/
def cycle (bytes : List Nat) : List Event :=
  [Event.gpio_put PENDING_B_PIN false, Event.spi_write_blocking bytes,
   Event.gpio_put PENDING_B_PIN true]

/-- A trace of whole writes: the monitor accepts it and is idle again at its
end, and its handshake events are one request, frame, release triple per
frame, in order. -/
def Clean (tr : List Event) : Prop :=
  handshake Phase.idle tr = some Phase.idle ∧
  hsEvents tr = (frames tr).flatMap cycle

/-- The counter `success` after one more completed write (`uint32_t`). -/
def bump (c : Nat) : Nat := (c + 1) % 2 ^ 32

/-- The lasting effect of a run of completed calls that issued the bus writes
`ws`: the counter was bumped once per write, `key_matrix` is as before, and
the events added form a clean trace carrying exactly `ws`. -/
def Eff (ws : List (Nat × Nat)) (s s' : State) : Prop :=
  s'.success = bump^[ws.length] s.success ∧
  s'.key_matrix = s.key_matrix ∧
  ∃ tr, s'.trace = s.trace ++ tr ∧ busWrites tr = ws ∧ Clean tr

/-- The effect on the trace of a run cut short inside a call: the events added
are ones the monitor, started idle, has not rejected. -/
def Cut (s s' : State) : Prop :=
  ∃ tr, s'.trace = s.trace ++ tr ∧ (handshake Phase.idle tr).isSome = true

/-- A list of `uint8_t` values. -/
def ByteList (l : List Nat) : Prop := ∀ b ∈ l, b < 2 ^ 8

/-- The bus writes an upload of `rom` at `start` is made of: the addresses
`start, start + 1, ...` as 16-bit values, paired with the bytes. -/
def romWrites (start : Nat) (rom : List Nat) : List (Nat × Nat) :=
  ((List.range' start rom.length).map (· % 2 ^ 16)).zip rom

/-- The bus writes of a call `copy_rom(pRom, start, byteLength)` that returns:
`byteLength` counts as a `uint16_t`, addresses are cut to 16 bits and data to
8 bits on their way into `pi_write`. -/
def copyWrites (start : Nat) (pRom : List Nat) (byteLength : Nat) : List (Nat × Nat) :=
  (List.range (byteLength % 2 ^ 16)).map fun i => ((start + i) % 2 ^ 16, pRom.getD i 0 % 2 ^ 8)

/-- The bus writes of the six `copy_rom` calls of `init`, in program order. -/
def uploadWrites (roms : Roms) : List (Nat × Nat) :=
  copyWrites 0x8800 roms.rom_chars_8800 roms.rom_chars_8800.length
    ++ copyWrites 0xb000 roms.rom_basic_b000 roms.rom_basic_b000.length
    ++ copyWrites 0xc000 roms.rom_basic_c000 roms.rom_basic_c000.length
    ++ copyWrites 0xd000 roms.rom_basic_d000 roms.rom_basic_d000.length
    ++ copyWrites 0xe000 roms.rom_edit_e000 roms.rom_edit_e000.length
    ++ copyWrites 0xf000 roms.rom_kernal_f000 roms.rom_kernal_f000.length

/-- Every image is an array of `uint8_t`. -/
def Roms.Bytes (roms : Roms) : Prop :=
  ByteList roms.rom_chars_8800 ∧ ByteList roms.rom_basic_b000 ∧ ByteList roms.rom_basic_c000 ∧
  ByteList roms.rom_basic_d000 ∧ ByteList roms.rom_edit_e000 ∧ ByteList roms.rom_kernal_f000

/-- Every image's length fits the `uint16_t byteLength` of `copy_rom`. -/
def Roms.Fit (roms : Roms) : Prop :=
  roms.rom_chars_8800.length < 2 ^ 16 ∧ roms.rom_basic_b000.length < 2 ^ 16 ∧
  roms.rom_basic_c000.length < 2 ^ 16 ∧ roms.rom_basic_d000.length < 2 ^ 16 ∧
  roms.rom_edit_e000.length < 2 ^ 16 ∧ roms.rom_kernal_f000.length < 2 ^ 16

/-- The data of the last write to the CPU control register `0xE80F` in a list
of bus writes, if there is one. -/
def lastCtl (ws : List (Nat × Nat)) : Option Nat :=
  ((ws.filter fun w => decide (w.1 = 0xE80F)).getLast?).map Prod.snd

/-- A run that keeps to the handshake: what it added to the trace is a clean
trace when the run returned, and a trace the monitor has not rejected when the
run was cut short. -/
def Disciplined (s : State) (r : Result) : Prop :=
  ∃ tr, r.state.trace = s.trace ++ tr ∧
    match r with
    | .returned _ => Clean tr
    | .unfinished _ => (handshake Phase.idle tr).isSome = true

/-- The events of `init_setup`, in order. -/
def setupEvents : List Event :=
  [Event.stdio_init_all, Event.gpio_init PENDING_B_PIN, Event.gpio_set_dir PENDING_B_PIN true,
   Event.gpio_put PENDING_B_PIN true, Event.sleep_ms 1, Event.gpio_init DONE_B_PIN,
   Event.gpio_set_dir DONE_B_PIN false, Event.spi_init (1000 * 1000),
   Event.gpio_set_function SPI_SCK_PIN, Event.gpio_set_function SPI_TX_PIN,
   Event.gpio_set_function SPI_RX_PIN, Event.gpio_set_function SPI_CSN_PIN]

/-- A peer that answers at once: DONE reads high exactly when the last event
is the request (`PENDING_B_PIN` driven low).  The USB stack leaves
`key_matrix` alone. -/
def promptPeer : Env where
  done_b := fun h => decide (h.getLast? = some (Event.gpio_put PENDING_B_PIN false))
  usb := fun _ km => km

/-- A power-on state: counter zero, empty trace, given `key_matrix`. -/
def State.boot (km : List Nat) : State :=
  { success := 0, pending_b := false, key_matrix := km, trace := [] }


/-- A responsive peer: after a request it shows DONE high within `fuel` polls,
and after a frame it shows DONE low within `fuel` polls, whatever came before. -/
def Responsive (env : Env) (fuel : Nat) : Prop :=
  (∀ h : List Event, ∃ k, k < fuel ∧
    env.done_b (h ++ Event.gpio_put PENDING_B_PIN false
      :: List.replicate k (Event.gpio_get DONE_B_PIN false)) = true) ∧
  (∀ (h : List Event) (src : List Nat), ∃ k, k < fuel ∧
    env.done_b (h ++ Event.spi_write_blocking src
      :: List.replicate k (Event.gpio_get DONE_B_PIN true)) = false)

/-- A peer that never shows DONE high. -/
def deadPeer : Env where
  done_b := fun _ => false
  usb := fun _ km => km

/-- A peer that raises DONE at the first request and never lowers it again:
DONE reads high exactly when `PENDING_B_PIN` has been driven low at some point
of the history. -/
def latchPeer : Env where
  done_b := fun h => decide (Event.gpio_put PENDING_B_PIN false ∈ h)
  usb := fun _ km => km

/-- Six small images. -/
def demoRoms : Roms :=
  { rom_chars_8800 := [1, 2], rom_basic_b000 := [3], rom_basic_c000 := [],
    rom_basic_d000 := [], rom_edit_e000 := [4], rom_kernal_f000 := [5] }

/-- Six images of which the first has 65536 bytes and the others none. -/
def longRoms : Roms :=
  { rom_chars_8800 := List.replicate 65536 0, rom_basic_b000 := [], rom_basic_c000 := [],
    rom_basic_d000 := [], rom_edit_e000 := [], rom_kernal_f000 := [] }

/-- Six images of no bytes. -/
def emptyRoms : Roms :=
  { rom_chars_8800 := [], rom_basic_b000 := [], rom_basic_c000 := [],
    rom_basic_d000 := [], rom_edit_e000 := [], rom_kernal_f000 := [] }

/-- Six images of which the first has one byte and the others none. -/
def oneByteRoms : Roms :=
  { rom_chars_8800 := [0x55], rom_basic_b000 := [], rom_basic_c000 := [],
    rom_basic_d000 := [], rom_edit_e000 := [], rom_kernal_f000 := [] }

/-! ## Lemmas on the busy-wait -/

theorem poll_while_returned (env : Env) (level : Bool) :
    ∀ (fuel : Nat) (s s' : State), poll_while env level fuel s = .returned s' →
      ∃ j, j < fuel ∧ s' = { s with trace := s.trace ++
        (List.replicate j (Event.gpio_get DONE_B_PIN level)
          ++ [Event.gpio_get DONE_B_PIN (!level)]) } := by
  intro fuel
  induction fuel with
  | zero => intro s s' h; simp [poll_while] at h
  | succ n ih =>
    intro s s' h
    unfold poll_while at h
    by_cases hv : env.done_b s.trace = level
    · simp only [gpio_get, hv, if_true] at h
      obtain ⟨j, hj, rfl⟩ := ih _ _ h
      refine ⟨j + 1, by omega, ?_⟩
      simp [emit, List.replicate_succ]
    · simp only [gpio_get, hv, if_false] at h
      injection h with h
      subst h
      refine ⟨0, by omega, ?_⟩
      have : env.done_b s.trace = !level := by
        cases level <;> cases hd : env.done_b s.trace <;> simp_all
      simp [emit, this]

theorem poll_while_unfinished (env : Env) (level : Bool) :
    ∀ (fuel : Nat) (s s' : State), poll_while env level fuel s = .unfinished s' →
      s' = { s with trace := s.trace ++ List.replicate fuel (Event.gpio_get DONE_B_PIN level) } := by
  intro fuel
  induction fuel with
  | zero => intro s s' h; simp [poll_while] at h; simp [← h]
  | succ n ih =>
    intro s s' h
    unfold poll_while at h
    by_cases hv : env.done_b s.trace = level
    · simp only [gpio_get, hv, if_true] at h
      rw [ih _ _ h]
      simp [emit, List.replicate_succ]
    · simp [gpio_get, hv] at h

theorem poll_while_stuck (env : Env) (level : Bool) :
    ∀ (fuel : Nat) (s : State),
      (∀ i, i < fuel → env.done_b (s.trace ++ List.replicate i (Event.gpio_get DONE_B_PIN level)) = level) →
      poll_while env level fuel s = .unfinished
        { s with trace := s.trace ++ List.replicate fuel (Event.gpio_get DONE_B_PIN level) } := by
  intro fuel
  induction fuel with
  | zero => intro s _; simp [poll_while]
  | succ n ih =>
    intro s h
    have h0 : env.done_b s.trace = level := by simpa using h 0 (by omega)
    unfold poll_while
    simp only [gpio_get, h0, if_true]
    rw [ih]
    · simp [emit, List.replicate_succ]
    · intro i hi
      have := h (i + 1) (by omega)
      simpa [emit, List.replicate_succ] using this

theorem poll_while_answers (env : Env) (level : Bool) :
    ∀ (k fuel : Nat) (s : State), k < fuel →
      env.done_b (s.trace ++ List.replicate k (Event.gpio_get DONE_B_PIN level)) = (!level) →
      ∃ s', poll_while env level fuel s = .returned s' := by
  intro k
  induction k with
  | zero =>
    intro fuel s hk h
    obtain ⟨n, rfl⟩ : ∃ n, fuel = n + 1 := ⟨fuel - 1, by omega⟩
    have h0 : env.done_b s.trace ≠ level := by
      simp at h; rw [h]; cases level <;> simp
    unfold poll_while
    simp [gpio_get, h0]
  | succ k ih =>
    intro fuel s hk h
    obtain ⟨n, rfl⟩ : ∃ n, fuel = n + 1 := ⟨fuel - 1, by omega⟩
    unfold poll_while
    by_cases hv : env.done_b s.trace = level
    · simp only [gpio_get, hv, if_true]
      apply ih n _ (by omega)
      simpa [emit, List.replicate_succ] using h
    · simp [gpio_get, hv]

theorem poll_while_exact (env : Env) (level : Bool) :
    ∀ (j fuel : Nat) (s : State), j < fuel →
      (∀ i, i < j →
        env.done_b (s.trace ++ List.replicate i (Event.gpio_get DONE_B_PIN level)) = level) →
      env.done_b (s.trace ++ List.replicate j (Event.gpio_get DONE_B_PIN level)) = (!level) →
      poll_while env level fuel s = .returned
        { s with trace := s.trace ++ (List.replicate j (Event.gpio_get DONE_B_PIN level)
            ++ [Event.gpio_get DONE_B_PIN (!level)]) } := by
  intro j
  induction j with
  | zero =>
    intro fuel s hj _ h
    obtain ⟨n, rfl⟩ : ∃ n, fuel = n + 1 := ⟨fuel - 1, by omega⟩
    have h0 : env.done_b s.trace = (!level) := by simpa using h
    have hne : env.done_b s.trace ≠ level := by rw [h0]; cases level <;> simp
    unfold poll_while
    simp [gpio_get, hne, h0, emit]
  | succ j ih =>
    intro fuel s hj hlow h
    obtain ⟨n, rfl⟩ : ∃ n, fuel = n + 1 := ⟨fuel - 1, by omega⟩
    have h0 : env.done_b s.trace = level := by simpa using hlow 0 (by omega)
    unfold poll_while
    simp only [gpio_get, h0, if_true]
    rw [ih n _ (by omega)]
    · simp [emit, List.replicate_succ]
    · intro i hi
      have := hlow (i + 1) (by omega)
      simpa [emit, List.replicate_succ] using this
    · simpa [emit, List.replicate_succ] using h

/-! ## Lemmas on `pi_write` -/

theorem bind_ret (s : State) (f : State → Result) : (Result.returned s).bind f = f s := rfl

theorem bind_returned (r : Result) (f : State → Result) (s' : State) :
    r.bind f = .returned s' ↔ ∃ s1, r = .returned s1 ∧ f s1 = .returned s' := by
  cases r <;> simp [Result.bind]

theorem bind_unfinished (r : Result) (f : State → Result) (s' : State) :
    r.bind f = .unfinished s' ↔
      r = .unfinished s' ∨ ∃ s1, r = .returned s1 ∧ f s1 = .unfinished s' := by
  cases r <;> simp [Result.bind]

theorem pi_write_returned (env : Env) (fuel addr data : Nat) (s s' : State)
    (h : pi_write env fuel addr data s = .returned s') :
    ∃ j k, j < fuel ∧ k < fuel ∧
      s' = { success := (s.success + 1) % 2 ^ 32, pending_b := true,
             key_matrix := s.key_matrix,
             trace := s.trace ++ window j k (pi_write_bytes addr data) } := by
  unfold pi_write at h
  simp only [bind_returned] at h
  obtain ⟨s1, h1, s2, h2, h⟩ := h
  obtain ⟨j, hj, rfl⟩ := poll_while_returned _ _ _ _ _ h1
  obtain ⟨k, hk, rfl⟩ := poll_while_returned _ _ _ _ _ h2
  injection h with h
  refine ⟨j, k, hj, hk, ?_⟩
  rw [← h]
  simp [gpio_put, spi_write_blocking, emit, window, pi_write_bytes]

theorem pi_write_unfinished (env : Env) (fuel addr data : Nat) (s s' : State)
    (h : pi_write env fuel addr data s = .unfinished s') :
    s'.success = s.success ∧ s'.pending_b = false ∧ s'.key_matrix = s.key_matrix ∧
    (s'.trace = s.trace ++ Event.gpio_put PENDING_B_PIN false
        :: List.replicate fuel (Event.gpio_get DONE_B_PIN false) ∨
     ∃ j, j < fuel ∧ s'.trace = s.trace ++ Event.gpio_put PENDING_B_PIN false
        :: (List.replicate j (Event.gpio_get DONE_B_PIN false)
        ++ Event.gpio_get DONE_B_PIN true
        :: Event.spi_write_blocking (pi_write_bytes addr data)
        :: List.replicate fuel (Event.gpio_get DONE_B_PIN true))) := by
  unfold pi_write at h
  simp only [bind_unfinished, bind_returned] at h
  rcases h with h1 | ⟨s1, h1, h2 | ⟨s2, _, h⟩⟩
  · rw [poll_while_unfinished _ _ _ _ _ h1]
    simp [gpio_put, emit]
  · obtain ⟨j, hj, rfl⟩ := poll_while_returned _ _ _ _ _ h1
    rw [poll_while_unfinished _ _ _ _ _ h2]
    refine ⟨?_, ?_, ?_, Or.inr ⟨j, hj, ?_⟩⟩ <;>
      simp [gpio_put, spi_write_blocking, emit, pi_write_bytes]
  · simp at h

theorem pi_write_responsive (env : Env) (fuel : Nat) (hr : Responsive env fuel)
    (addr data : Nat) (s : State) :
    ∃ s', pi_write env fuel addr data s = .returned s' := by
  obtain ⟨k1, hk1, h1⟩ := hr.1 s.trace
  obtain ⟨s1, hs1⟩ := poll_while_answers env false k1 fuel (gpio_put PENDING_B_PIN false s) hk1
    (by simpa [gpio_put, emit] using h1)
  obtain ⟨k2, hk2, h2⟩ := hr.2 s1.trace (pi_write_bytes addr data)
  obtain ⟨s2, hs2⟩ := poll_while_answers env true k2 fuel
    (spi_write_blocking (pi_write_bytes addr data) 4 s1) hk2
    (by simpa [spi_write_blocking, emit, pi_write_bytes] using h2)
  unfold pi_write
  simp [Result.bind, hs1, hs2]

/-! ## Lemmas on the observations -/

theorem frames_append (a b : List Event) : frames (a ++ b) = frames a ++ frames b := by
  induction a with
  | nil => rfl
  | cons e es ih => cases e <;> simp [frames, ih]

theorem frames_gets (n gpio : Nat) (v : Bool) :
    frames (List.replicate n (Event.gpio_get gpio v)) = [] := by
  induction n with
  | zero => rfl
  | succ n ih => simp [List.replicate_succ, frames, ih]

theorem frames_window (j k : Nat) (bytes : List Nat) : frames (window j k bytes) = [bytes] := by
  simp [window, frames, frames_append, frames_gets]

theorem busWrites_append (a b : List Event) : busWrites (a ++ b) = busWrites a ++ busWrites b := by
  simp [busWrites, frames_append]

theorem decodeFrame_bytes (addr data : Nat) :
    decodeFrame (pi_write_bytes addr data) = some (addr % 2 ^ 16, data % 2 ^ 8) := by
  have h : addr % 2 ^ 16 &&& 0xff = addr % 2 ^ 16 % 2 ^ 8 :=
    Nat.and_pow_two_sub_one_eq_mod _ 8
  simp only [pi_write_bytes, decodeFrame, h, Nat.shiftRight_eq_div_pow]
  simp
  omega

theorem busWrites_window (j k addr data : Nat) :
    busWrites (window j k (pi_write_bytes addr data)) = [(addr % 2 ^ 16, data % 2 ^ 8)] := by
  simp [busWrites, frames_window, decodeFrame_bytes]

theorem linkBytes_append (a b : List Event) : linkBytes (a ++ b) = linkBytes a ++ linkBytes b := by
  induction a with
  | nil => rfl
  | cons e es ih => cases e <;> simp [linkBytes, ih]

theorem linkBytes_gets (n gpio : Nat) (v : Bool) :
    linkBytes (List.replicate n (Event.gpio_get gpio v)) = [] := by
  induction n with
  | zero => rfl
  | succ n ih => simp [List.replicate_succ, linkBytes, ih]

theorem linkBytes_window (j k : Nat) (bytes : List Nat) : linkBytes (window j k bytes) = bytes := by
  simp [window, linkBytes, linkBytes_append, linkBytes_gets]

theorem handshake_append (a b : List Event) :
    ∀ p, handshake p (a ++ b) = (handshake p a).bind fun q => handshake q b := by
  induction a with
  | nil => intro p; rfl
  | cons e es ih =>
    intro p
    cases h : handshakeStep p e <;> simp [handshake, h, ih]

theorem handshake_gets (n gpio : Nat) (v : Bool) (p : Phase) :
    handshake p (List.replicate n (Event.gpio_get gpio v)) = some p := by
  induction n with
  | zero => rfl
  | succ n ih => simp [List.replicate_succ, handshake, handshakeStep, ih]

theorem handshake_window (j k : Nat) (bytes : List Nat) :
    handshake Phase.idle (window j k bytes) = some Phase.idle := by
  simp [window, handshake, handshakeStep, handshake_append, handshake_gets]

theorem hsEvents_append (a b : List Event) : hsEvents (a ++ b) = hsEvents a ++ hsEvents b := by
  simp [hsEvents]

theorem hsEvents_gets (n gpio : Nat) (v : Bool) :
    hsEvents (List.replicate n (Event.gpio_get gpio v)) = [] := by
  induction n with
  | zero => rfl
  | succ n ih => simp [List.replicate_succ, hsEvents, isHandshakeEvent]

theorem hsEvents_window (j k : Nat) (bytes : List Nat) :
    hsEvents (window j k bytes) = cycle bytes := by
  have h1 := hsEvents_gets j DONE_B_PIN false
  have h2 := hsEvents_gets k DONE_B_PIN true
  simp only [hsEvents] at h1 h2
  simp [window, hsEvents, List.filter_cons, isHandshakeEvent, cycle, h1, h2]

theorem clean_nil : Clean [] := by
  simp [Clean, handshake, hsEvents, frames]

theorem clean_append (a b : List Event) (ha : Clean a) (hb : Clean b) : Clean (a ++ b) := by
  refine ⟨?_, ?_⟩
  · simp [handshake_append, ha.1, hb.1]
  · simp [hsEvents_append, frames_append, ha.2, hb.2]

theorem clean_window (j k : Nat) (bytes : List Nat) : Clean (window j k bytes) :=
  ⟨handshake_window j k bytes, by simp [hsEvents_window, frames_window]⟩

theorem bump_iterate (n c : Nat) (h : 0 < n ∨ c < 2 ^ 32) : bump^[n] c = (c + n) % 2 ^ 32 := by
  induction n with
  | zero =>
    rcases h with h | h
    · omega
    · simp only [Function.iterate_zero, id_eq, Nat.add_zero]
      omega
  | succ n ih =>
    rw [Function.iterate_succ_apply']
    by_cases hn : n = 0
    · subst hn; simp [bump]
    · rw [ih (Or.inl (by omega))]
      simp only [bump]
      omega

/-! ## Effects of the calls -/

theorem eff_refl (s : State) : Eff [] s s :=
  ⟨rfl, rfl, [], by simp, rfl, clean_nil⟩

theorem eff_trans (ws1 ws2 : List (Nat × Nat)) (s s1 s2 : State)
    (h1 : Eff ws1 s s1) (h2 : Eff ws2 s1 s2) : Eff (ws1 ++ ws2) s s2 := by
  obtain ⟨a1, b1, t1, c1, d1, e1⟩ := h1
  obtain ⟨a2, b2, t2, c2, d2, e2⟩ := h2
  refine ⟨?_, by rw [b2, b1], t1 ++ t2, by rw [c2, c1, List.append_assoc], ?_, clean_append _ _ e1 e2⟩
  · rw [a2, a1, List.length_append, Nat.add_comm, Function.iterate_add_apply]
  · rw [busWrites_append, d1, d2]

theorem eff_pi_write (env : Env) (fuel addr data : Nat) (s s' : State)
    (h : pi_write env fuel addr data s = .returned s') :
    Eff [(addr % 2 ^ 16, data % 2 ^ 8)] s s' := by
  obtain ⟨j, k, _, _, rfl⟩ := pi_write_returned _ _ _ _ _ _ h
  exact ⟨rfl, rfl, _, rfl, busWrites_window j k addr data, clean_window _ _ _⟩

theorem cut_pi_write (env : Env) (fuel addr data : Nat) (s s' : State)
    (h : pi_write env fuel addr data s = .unfinished s') : Cut s s' := by
  obtain ⟨_, _, _, h | ⟨j, _, h⟩⟩ := pi_write_unfinished _ _ _ _ _ _ h
  · exact ⟨_, h, by simp [handshake, handshakeStep, handshake_gets]⟩
  · exact ⟨_, h, by simp [handshake, handshakeStep, handshake_append, handshake_gets]⟩

theorem cut_of_eff (ws : List (Nat × Nat)) (s s' : State) (h : Eff ws s s') : Cut s s' := by
  obtain ⟨_, _, tr, h1, _, h2⟩ := h
  exact ⟨tr, h1, by simp [h2.1]⟩

theorem cut_after_eff (ws : List (Nat × Nat)) (s s1 s2 : State)
    (h1 : Eff ws s s1) (h2 : Cut s1 s2) : Cut s s2 := by
  obtain ⟨_, _, t1, c1, _, e1⟩ := h1
  obtain ⟨t2, c2, e2⟩ := h2
  exact ⟨t1 ++ t2, by rw [c2, c1, List.append_assoc], by simpa [handshake_append, e1.1] using e2⟩

theorem clean_other (e : Event) (h : isHandshakeEvent e = false) : Clean [e] := by
  cases e <;> simp_all [Clean, handshake, handshakeStep, hsEvents, isHandshakeEvent, frames]

theorem eff_emit (e : Event) (h : isHandshakeEvent e = false) (s : State) : Eff [] s (emit e s) :=
  ⟨rfl, rfl, [e], rfl, by cases e <;> simp_all [busWrites, frames, isHandshakeEvent],
    clean_other e h⟩

theorem eff_set_cpu (env : Env) (fuel : Nat) (reset run : Bool) (s s' : State)
    (h : set_cpu env fuel reset run s = .returned s') :
    Eff [(0xE80F, (if reset then 0 else 1) + 2 * (if run then 1 else 0))] s s' := by
  unfold set_cpu at h
  rw [bind_returned] at h
  obtain ⟨s1, h1, h2⟩ := h
  injection h2 with h2
  subst h2
  have e1 := eff_pi_write _ _ _ _ _ _ h1
  have e2 : Eff [] s1 (sleep_ms 1 s1) := eff_emit (Event.sleep_ms 1) rfl s1
  have := eff_trans _ _ _ _ _ e1 e2
  cases reset <;> cases run <;> simpa using this

theorem cut_set_cpu (env : Env) (fuel : Nat) (reset run : Bool) (s s' : State)
    (h : set_cpu env fuel reset run s = .unfinished s') : Cut s s' := by
  unfold set_cpu at h
  rw [bind_unfinished] at h
  rcases h with h | ⟨s1, _, h⟩
  · exact cut_pi_write _ _ _ _ _ _ h
  · simp at h

theorem total_set_cpu (env : Env) (fuel : Nat) (hr : Responsive env fuel) (reset run : Bool)
    (s : State) : ∃ s', set_cpu env fuel reset run s = .returned s' := by
  unfold set_cpu
  obtain ⟨s1, h1⟩ := pi_write_responsive env fuel hr 0xE80F
    ((if reset then 0 else (1 <<< 0)) ||| (if run then (1 <<< 1) else 0)) s
  exact ⟨sleep_ms 1 s1, by rw [h1]; rfl⟩

theorem eff_copy_rom_loop (env : Env) (fuel : Nat) (pRom : List Nat) (end_ : Nat) :
    ∀ (n addr pSrc : Nat) (s s' : State), addr + n = end_ →
      copy_rom_loop env fuel pRom end_ n addr pSrc s = .returned s' →
      Eff ((List.range n).map fun i => ((addr + i) % 2 ^ 16, pRom.getD (pSrc + i) 0 % 2 ^ 8))
        s s' := by
  intro n
  induction n with
  | zero =>
    intro addr pSrc s s' hn h
    have : ¬ addr < end_ := by omega
    simp only [copy_rom_loop, this, if_false] at h
    injection h with h
    subst h
    exact eff_refl s
  | succ n ih =>
    intro addr pSrc s s' hn h
    have : addr < end_ := by omega
    simp only [copy_rom_loop, this, if_true, bind_returned] at h
    obtain ⟨s1, h1, h2⟩ := h
    have e1 := eff_pi_write _ _ _ _ _ _ h1
    have e2 := ih (addr + 1) (pSrc + 1) s1 s' (by omega) h2
    have := eff_trans _ _ _ _ _ e1 e2
    simpa [List.range_succ_eq_map, List.map_map, Function.comp_def, Nat.add_assoc,
      Nat.add_comm 1] using this

theorem cut_copy_rom_loop (env : Env) (fuel : Nat) (pRom : List Nat) (end_ : Nat) :
    ∀ (n addr pSrc : Nat) (s s' : State),
      copy_rom_loop env fuel pRom end_ n addr pSrc s = .unfinished s' → Cut s s' := by
  intro n
  induction n with
  | zero =>
    intro addr pSrc s s' h
    by_cases hlt : addr < end_
    · simp only [copy_rom_loop, hlt, if_true] at h
      injection h with h
      subst h
      exact cut_of_eff _ _ _ (eff_refl s)
    · simp [copy_rom_loop, hlt] at h
  | succ n ih =>
    intro addr pSrc s s' h
    by_cases hlt : addr < end_
    · simp only [copy_rom_loop, hlt, if_true, bind_unfinished] at h
      rcases h with h | ⟨s1, h1, h2⟩
      · exact cut_pi_write _ _ _ _ _ _ h
      · exact cut_after_eff _ _ _ _ (eff_pi_write _ _ _ _ _ _ h1) (ih _ _ _ _ h2)
    · simp [copy_rom_loop, hlt] at h

theorem total_copy_rom_loop (env : Env) (fuel : Nat) (hr : Responsive env fuel)
    (pRom : List Nat) (end_ : Nat) :
    ∀ (n addr pSrc : Nat) (s : State), addr + n = end_ →
      ∃ s', copy_rom_loop env fuel pRom end_ n addr pSrc s = .returned s' := by
  intro n
  induction n with
  | zero =>
    intro addr pSrc s hn
    have : ¬ addr < end_ := by omega
    exact ⟨s, by simp [copy_rom_loop, this]⟩
  | succ n ih =>
    intro addr pSrc s hn
    have : addr < end_ := by omega
    obtain ⟨s1, h1⟩ := pi_write_responsive env fuel hr addr (pRom.getD pSrc 0) s
    obtain ⟨s2, h2⟩ := ih (addr + 1) (pSrc + 1) s1 (by omega)
    exact ⟨s2, by simp only [copy_rom_loop, this, if_true, h1, Result.bind, h2]⟩

theorem eff_copy_rom (env : Env) (fuel : Nat) (pRom : List Nat) (start byteLength : Nat)
    (s s' : State) (h : copy_rom env fuel pRom start byteLength s = .returned s') :
    Eff (copyWrites start pRom byteLength) s s' := by
  unfold copy_rom at h
  have := eff_copy_rom_loop _ _ _ _ _ _ _ _ _ (by omega) h
  simpa [copyWrites] using this

theorem cut_copy_rom (env : Env) (fuel : Nat) (pRom : List Nat) (start byteLength : Nat)
    (s s' : State) (h : copy_rom env fuel pRom start byteLength s = .unfinished s') :
    Cut s s' :=
  cut_copy_rom_loop _ _ _ _ _ _ _ _ _ h

theorem total_copy_rom (env : Env) (fuel : Nat) (hr : Responsive env fuel) (pRom : List Nat)
    (start byteLength : Nat) (s : State) :
    ∃ s', copy_rom env fuel pRom start byteLength s = .returned s' :=
  total_copy_rom_loop env fuel hr _ _ _ _ _ _ (by omega)

theorem range_map_eq_romWrites (start : Nat) (rom : List Nat) (hb : ByteList rom) :
    ((List.range rom.length).map fun i => ((start + i) % 2 ^ 16, rom.getD i 0 % 2 ^ 8))
      = romWrites start rom := by
  unfold romWrites
  induction rom generalizing start with
  | nil => rfl
  | cons b bs ih =>
    have hb' : ByteList bs := fun x hx => hb x (List.mem_cons_of_mem _ hx)
    have hlt : b < 256 := by have := hb b (List.mem_cons_self _ _); omega
    have := ih (start + 1) hb'
    simp only [List.length_cons, List.range_succ_eq_map, List.map_cons, List.map_map,
      List.range'_succ, List.zip_cons_cons, ← this]
    simp [Function.comp_def, Nat.mod_eq_of_lt hlt, Nat.add_assoc, Nat.add_comm 1]

theorem copyWrites_eq_romWrites (start : Nat) (rom : List Nat) (hl : rom.length < 2 ^ 16)
    (hb : ByteList rom) : copyWrites start rom rom.length = romWrites start rom := by
  rw [copyWrites, Nat.mod_eq_of_lt hl]
  exact range_map_eq_romWrites start rom hb

theorem romWrites_length (start : Nat) (rom : List Nat) :
    (romWrites start rom).length = rom.length := by
  simp [romWrites]

theorem promptPeer_responsive (fuel : Nat) (hf : 0 < fuel) : Responsive promptPeer fuel := by
  constructor
  · intro h
    exact ⟨0, hf, by simp [promptPeer]⟩
  · intro h src
    exact ⟨0, hf, by simp [promptPeer]⟩

theorem pi_write_bytes_eq (addr data : Nat) (ha : addr < 2 ^ 16) (hd : data < 2 ^ 8) :
    pi_write_bytes addr data = [0x84, addr >>> 8, addr &&& 0xFF, data] := by
  have h : addr &&& 0xFF = addr % 2 ^ 8 := Nat.and_pow_two_sub_one_eq_mod _ 8
  simp only [pi_write_bytes, h, Nat.shiftRight_eq_div_pow]
  have h1 : addr % 2 ^ 16 = addr := Nat.mod_eq_of_lt ha
  have h2 : data % 2 ^ 8 = data := Nat.mod_eq_of_lt hd
  have h3 : addr / 2 ^ 8 % 2 ^ 8 = addr / 2 ^ 8 := Nat.mod_eq_of_lt (by omega)
  have h4 : addr &&& 0xff = addr % 2 ^ 8 := Nat.and_pow_two_sub_one_eq_mod _ 8
  rw [h1, h2, h3, h4, Nat.mod_mod]

theorem busWrites_window_of (j k : Nat) (bytes : List Nat) (w : Nat × Nat)
    (h : decodeFrame bytes = some w) : busWrites (window j k bytes) = [w] := by
  simp [busWrites, frames_window, h]

/-! ## The claims -/

/-- C1: for every 16-bit `addr` and 8-bit `data`, a call `pi_write(addr, data)`
that returns has added to the trace exactly one frame, which is
`[0x84, addr >> 8, addr & 0xFF, data]`, and the bytes that went out on the
serial link during the call are these four, in this order, and no others. -/
theorem pi_write_sends_one_frame (env : Env) (fuel addr data : Nat) (s s' : State)
    (ha : addr < 2 ^ 16) (hd : data < 2 ^ 8)
    (h : pi_write env fuel addr data s = .returned s') :
    ∃ tr, s'.trace = s.trace ++ tr ∧
      frames tr = [[0x84, addr >>> 8, addr &&& 0xFF, data]] ∧
      linkBytes tr = [0x84, addr >>> 8, addr &&& 0xFF, data] := by
  obtain ⟨j, k, _, _, rfl⟩ := pi_write_returned _ _ _ _ _ _ h
  refine ⟨_, rfl, ?_, ?_⟩
  · rw [frames_window, pi_write_bytes_eq addr data ha hd]
  · rw [linkBytes_window, pi_write_bytes_eq addr data ha hd]

theorem pi_write_sends_one_frame_witness :
    ∃ tr, (pi_write promptPeer 1 0x1234 0x56 (State.boot [])).state.trace
        = (State.boot []).trace ++ tr ∧
      frames tr = [[0x84, 0x1234 >>> 8, 0x1234 &&& 0xFF, 0x56]] ∧
      linkBytes tr = [0x84, 0x1234 >>> 8, 0x1234 &&& 0xFF, 0x56] :=
  pi_write_sends_one_frame promptPeer 1 0x1234 0x56 (State.boot [])
    (pi_write promptPeer 1 0x1234 0x56 (State.boot [])).state (by decide) (by decide) (by decide)

/-- C2: whenever `pi_write(addr, data)` returns, whatever the peer did, the
events of the call are, in this order: `PENDING_B_PIN` driven low (REQUEST
asserted); `j` reads of `DONE_B_PIN` that found it low; one read that found it
high (the level the first wait is for: BUSY observed asserted); the frame;
`k` reads that found `DONE_B_PIN` high; one read that found it low (BUSY
observed deasserted); `PENDING_B_PIN` driven high (REQUEST deasserted). -/
theorem pi_write_handshake_order (env : Env) (fuel addr data : Nat) (s s' : State)
    (h : pi_write env fuel addr data s = .returned s') :
    ∃ j k, s'.trace = s.trace ++
      ([Event.gpio_put PENDING_B_PIN false]
        ++ List.replicate j (Event.gpio_get DONE_B_PIN false)
        ++ [Event.gpio_get DONE_B_PIN true]
        ++ [Event.spi_write_blocking (pi_write_bytes addr data)]
        ++ List.replicate k (Event.gpio_get DONE_B_PIN true)
        ++ [Event.gpio_get DONE_B_PIN false]
        ++ [Event.gpio_put PENDING_B_PIN true]) := by
  obtain ⟨j, k, _, _, rfl⟩ := pi_write_returned _ _ _ _ _ _ h
  exact ⟨j, k, by simp [window]⟩

theorem pi_write_handshake_order_witness :
    ∃ j k, (pi_write promptPeer 1 0x1234 0x56 (State.boot [])).state.trace = (State.boot []).trace ++
      ([Event.gpio_put PENDING_B_PIN false]
        ++ List.replicate j (Event.gpio_get DONE_B_PIN false)
        ++ [Event.gpio_get DONE_B_PIN true]
        ++ [Event.spi_write_blocking (pi_write_bytes 0x1234 0x56)]
        ++ List.replicate k (Event.gpio_get DONE_B_PIN true)
        ++ [Event.gpio_get DONE_B_PIN false]
        ++ [Event.gpio_put PENDING_B_PIN true]) :=
  pi_write_handshake_order promptPeer 1 0x1234 0x56 (State.boot [])
    (pi_write promptPeer 1 0x1234 0x56 (State.boot [])).state (by decide)

/-- C4: for every `reset` and `run`, the call `set_cpu(reset, run)` returns
whenever the peer is responsive, and a call that returns has added to the
trace one completed handshake, whose frame is the write of a byte `d` to
`0xE80F`, followed by `sleep_ms(1)` as the last event before the return; that
is the only bus write of the call; bit 0 of `d` is `!reset`, bit 1 of `d` is
`run`, and all higher bits are zero (`d < 4`). -/
theorem set_cpu_one_write (env : Env) (fuel : Nat) (reset run : Bool) (s : State) :
    (Responsive env fuel → ∃ s', set_cpu env fuel reset run s = .returned s') ∧
    (∀ s', set_cpu env fuel reset run s = .returned s' →
      ∃ d j k,
        s'.trace = s.trace ++ (window j k [0x84, 0xE8, 0x0F, d] ++ [Event.sleep_ms 1]) ∧
        busWrites (window j k [0x84, 0xE8, 0x0F, d] ++ [Event.sleep_ms 1]) = [(0xE80F, d)] ∧
        d.testBit 0 = (!reset) ∧ d.testBit 1 = run ∧ d < 4 ∧
        (∀ i, 2 ≤ i → d.testBit i = false)) := by
  refine ⟨fun hr => total_set_cpu env fuel hr reset run s, ?_⟩
  intro s' h
  unfold set_cpu at h
  rw [bind_returned] at h
  obtain ⟨s1, h1, h2⟩ := h
  injection h2 with h2
  subst h2
  obtain ⟨j, k, _, _, rfl⟩ := pi_write_returned _ _ _ _ _ _ h1
  have hhi : ∀ d i, d < 4 → 2 ≤ i → Nat.testBit d i = false := fun d i hd hi =>
    Nat.testBit_lt_two_pow (Nat.lt_of_lt_of_le hd (Nat.pow_le_pow_right (n := 2) (by decide) hi))
  have key : ∃ d, pi_write_bytes 0xE80F
        ((if reset then 0 else (1 <<< 0)) ||| (if run then (1 <<< 1) else 0))
          = [0x84, 0xE8, 0x0F, d] ∧
      d.testBit 0 = (!reset) ∧ d.testBit 1 = run ∧ d < 4 := by
    cases reset <;> cases run
    · exact ⟨1, by decide, by decide, by decide, by decide⟩
    · exact ⟨3, by decide, by decide, by decide, by decide⟩
    · exact ⟨0, by decide, by decide, by decide, by decide⟩
    · exact ⟨2, by decide, by decide, by decide, by decide⟩
  obtain ⟨d, hb, b0, b1, hd⟩ := key
  refine ⟨d, j, k, ?_, ?_, b0, b1, hd, fun i hi => hhi d i hd hi⟩
  · simp only [sleep_ms, emit, hb, List.append_assoc]
  · rw [busWrites_append, busWrites_window_of j k _ (0xE80F, d) (by simp [decodeFrame])]
    rfl

theorem set_cpu_one_write_witness :
    ((∃ s', set_cpu promptPeer 1 true false (State.boot []) = .returned s') ∧
      ∃ d j k,
        (set_cpu promptPeer 1 true false (State.boot [])).state.trace
          = (State.boot []).trace ++ (window j k [0x84, 0xE8, 0x0F, d] ++ [Event.sleep_ms 1]) ∧
        busWrites (window j k [0x84, 0xE8, 0x0F, d] ++ [Event.sleep_ms 1]) = [(0xE80F, d)] ∧
        d.testBit 0 = (!true) ∧ d.testBit 1 = false ∧ d < 4 ∧
        (∀ i, 2 ≤ i → d.testBit i = false)) ∧
    ((∃ s', set_cpu promptPeer 1 false true (State.boot []) = .returned s') ∧
      ∃ d j k,
        (set_cpu promptPeer 1 false true (State.boot [])).state.trace
          = (State.boot []).trace ++ (window j k [0x84, 0xE8, 0x0F, d] ++ [Event.sleep_ms 1]) ∧
        busWrites (window j k [0x84, 0xE8, 0x0F, d] ++ [Event.sleep_ms 1]) = [(0xE80F, d)] ∧
        d.testBit 0 = (!false) ∧ d.testBit 1 = true ∧ d < 4 ∧
        (∀ i, 2 ≤ i → d.testBit i = false)) :=
  ⟨⟨(set_cpu_one_write promptPeer 1 true false (State.boot [])).1
      (promptPeer_responsive 1 (by decide)),
    (set_cpu_one_write promptPeer 1 true false (State.boot [])).2
      (set_cpu promptPeer 1 true false (State.boot [])).state (by decide)⟩,
   ⟨(set_cpu_one_write promptPeer 1 false true (State.boot [])).1
      (promptPeer_responsive 1 (by decide)),
    (set_cpu_one_write promptPeer 1 false true (State.boot [])).2
      (set_cpu promptPeer 1 false true (State.boot [])).state (by decide)⟩⟩

/-- C7, as the code has it: `success` is a `uint32_t`, so a `pi_write` that
returns leaves the counter at `(before + 1) mod 2 ^ 32`, which is one more than
before whenever `before + 1 < 2 ^ 32`; `PENDING_B_PIN` is high again and
`key_matrix` is untouched.  A `copy_rom` of `n` bytes that returns leaves the
counter at `(before + n) mod 2 ^ 32`, which is `before + n` whenever that is
below `2 ^ 32`. -/
theorem pi_write_counter :
    (∀ (env : Env) (fuel addr data : Nat) (s s' : State),
      pi_write env fuel addr data s = .returned s' →
        s'.success = (s.success + 1) % 2 ^ 32 ∧
        (s.success + 1 < 2 ^ 32 → s'.success = s.success + 1) ∧
        s'.pending_b = true ∧ s'.key_matrix = s.key_matrix) ∧
    (∀ (env : Env) (fuel : Nat) (pRom : List Nat) (start n : Nat) (s s' : State),
      n < 2 ^ 16 → s.success < 2 ^ 32 →
      copy_rom env fuel pRom start n s = .returned s' →
        s'.success = (s.success + n) % 2 ^ 32 ∧
        (s.success + n < 2 ^ 32 → s'.success = s.success + n) ∧
        s'.key_matrix = s.key_matrix) := by
  constructor
  · intro env fuel addr data s s' h
    obtain ⟨j, k, _, _, rfl⟩ := pi_write_returned _ _ _ _ _ _ h
    exact ⟨rfl, fun hlt => Nat.mod_eq_of_lt hlt, rfl, rfl⟩
  · intro env fuel pRom start n s s' hn hs h
    obtain ⟨h1, h2, _⟩ := eff_copy_rom _ _ _ _ _ _ _ h
    rw [copyWrites, List.length_map, List.length_range, Nat.mod_eq_of_lt hn,
      bump_iterate n s.success (Or.inr hs)] at h1
    exact ⟨h1, fun hlt => by rw [h1, Nat.mod_eq_of_lt hlt], h2⟩

theorem pi_write_counter_witness :
    (pi_write promptPeer 1 0x1234 0x56 (State.boot [])).state.success = 0 + 1 ∧
    (copy_rom promptPeer 1 [0xAA, 0xBB, 0xCC, 0xDD] 0x1000 4 (State.boot [])).state.success
      = 0 + 4 :=
  ⟨(pi_write_counter.1 promptPeer 1 0x1234 0x56 (State.boot [])
      (pi_write promptPeer 1 0x1234 0x56 (State.boot [])).state (by decide)).2.1 (by decide),
   (pi_write_counter.2 promptPeer 1 [0xAA, 0xBB, 0xCC, 0xDD] 0x1000 4 (State.boot [])
      (copy_rom promptPeer 1 [0xAA, 0xBB, 0xCC, 0xDD] 0x1000 4 (State.boot [])).state
      (by decide) (by decide) (by decide)).2.1 (by decide)⟩

/-- C7 as stated fails: with the counter at `2 ^ 32 - 1` a completed `pi_write`
leaves it at `0`, not one greater. -/
theorem pi_write_counter_wraps :
    ∃ s', pi_write promptPeer 1 0 0
        { success := 4294967295, pending_b := true, key_matrix := [], trace := [] }
          = .returned s' ∧
      s'.success = 0 ∧ s'.success ≠ 4294967295 + 1 :=
  ⟨{ success := 0, pending_b := true, key_matrix := [], trace := window 0 0 [0x84, 0, 0, 0] },
    by decide, by decide, by decide⟩

/-- C9: `pi_write` has no way out of its waits.  If, after the request, the
peer never shows `DONE_B_PIN` high, then for every number `fuel` of polls the
call is still inside its first wait: the trace has grown by the request and
`fuel` reads only (so no byte has gone out), `PENDING_B_PIN` is low, `success`
and `key_matrix` are as before.  If the peer shows `DONE_B_PIN` high at the
`j`-th read after the request (low at the reads before it) and, once the frame
is out, never shows it low, then for every `fuel` the call has not returned,
`success` is as before and `PENDING_B_PIN` is low; and as soon as `fuel`
exceeds `j` the call sits in its second wait, the frame sent, `fuel` reads of
DONE high made after it.  Both conditions speak only of the histories this
very call produces. -/
theorem pi_write_fail_stop (env : Env) (addr data : Nat) (s : State) :
    ((∀ k, env.done_b (s.trace ++ Event.gpio_put PENDING_B_PIN false
          :: List.replicate k (Event.gpio_get DONE_B_PIN false)) = false) →
      ∀ fuel,
        pi_write env fuel addr data s = .unfinished
          { s with pending_b := false,
                   trace := s.trace ++ Event.gpio_put PENDING_B_PIN false
                      :: List.replicate fuel (Event.gpio_get DONE_B_PIN false) } ∧
        linkBytes (Event.gpio_put PENDING_B_PIN false
          :: List.replicate fuel (Event.gpio_get DONE_B_PIN false)) = []) ∧
    (∀ j,
      (∀ i, i < j → env.done_b (s.trace ++ Event.gpio_put PENDING_B_PIN false
          :: List.replicate i (Event.gpio_get DONE_B_PIN false)) = false) →
      env.done_b (s.trace ++ Event.gpio_put PENDING_B_PIN false
          :: List.replicate j (Event.gpio_get DONE_B_PIN false)) = true →
      (∀ k, env.done_b (s.trace ++ Event.gpio_put PENDING_B_PIN false
          :: (List.replicate j (Event.gpio_get DONE_B_PIN false)
          ++ Event.gpio_get DONE_B_PIN true
          :: Event.spi_write_blocking (pi_write_bytes addr data)
          :: List.replicate k (Event.gpio_get DONE_B_PIN true))) = true) →
      ∀ fuel,
        (∃ s', pi_write env fuel addr data s = .unfinished s' ∧
          s'.success = s.success ∧ s'.pending_b = false ∧ s'.key_matrix = s.key_matrix) ∧
        (j < fuel → pi_write env fuel addr data s = .unfinished
          { s with pending_b := false,
                   trace := s.trace ++ Event.gpio_put PENDING_B_PIN false
                      :: (List.replicate j (Event.gpio_get DONE_B_PIN false)
                      ++ Event.gpio_get DONE_B_PIN true
                      :: Event.spi_write_blocking (pi_write_bytes addr data)
                      :: List.replicate fuel (Event.gpio_get DONE_B_PIN true)) })) := by
  constructor
  · intro hdead fuel
    constructor
    · unfold pi_write
      simp only
      rw [poll_while_stuck env false fuel (gpio_put PENDING_B_PIN false s)
        (fun i _ => by simpa [gpio_put, emit] using hdead i)]
      simp [Result.bind, gpio_put, emit]
    · simp [linkBytes, linkBytes_gets]
  · intro j hlow hhigh hstuck fuel
    have hsecond : j < fuel → pi_write env fuel addr data s = .unfinished
        { s with pending_b := false,
                 trace := s.trace ++ Event.gpio_put PENDING_B_PIN false
                    :: (List.replicate j (Event.gpio_get DONE_B_PIN false)
                    ++ Event.gpio_get DONE_B_PIN true
                    :: Event.spi_write_blocking (pi_write_bytes addr data)
                    :: List.replicate fuel (Event.gpio_get DONE_B_PIN true)) } := by
      intro hj
      obtain ⟨s1, hs1, h1⟩ : ∃ s1 : State,
          s1 = { gpio_put PENDING_B_PIN false s with
            trace := (gpio_put PENDING_B_PIN false s).trace ++
              (List.replicate j (Event.gpio_get DONE_B_PIN false)
                ++ [Event.gpio_get DONE_B_PIN (!false)]) } ∧
          poll_while env false fuel (gpio_put PENDING_B_PIN false s) = .returned s1 :=
        ⟨_, rfl, poll_while_exact env false j fuel (gpio_put PENDING_B_PIN false s) hj
          (fun i hi => by simpa [gpio_put, emit] using hlow i hi)
          (by simpa [gpio_put, emit] using hhigh)⟩
      have h2 := poll_while_stuck env true fuel
        (spi_write_blocking (pi_write_bytes addr data) 4 s1)
        (fun i _ => by
          rw [hs1]
          simpa [gpio_put, emit, spi_write_blocking, pi_write_bytes] using hstuck i)
      unfold pi_write
      simp only
      rw [h1, bind_ret, h2, hs1]
      simp [Result.bind, gpio_put, emit, spi_write_blocking, pi_write_bytes]
    refine ⟨?_, hsecond⟩
    by_cases hj : j < fuel
    · exact ⟨_, hsecond hj, rfl, rfl, rfl⟩
    · have h1 := poll_while_stuck env false fuel (gpio_put PENDING_B_PIN false s)
        (fun i hi => by simpa [gpio_put, emit] using hlow i (by omega))
      refine ⟨_, by unfold pi_write; simp only; rw [h1]; rfl, ?_, ?_, ?_⟩ <;>
        simp [gpio_put, emit]

theorem pi_write_fail_stop_witness :
    (pi_write deadPeer 5 0x1234 0x56 (State.boot []) = .unfinished
        { State.boot [] with
            pending_b := false,
            trace := (State.boot []).trace ++ Event.gpio_put PENDING_B_PIN false
              :: List.replicate 5 (Event.gpio_get DONE_B_PIN false) } ∧
      linkBytes (Event.gpio_put PENDING_B_PIN false
        :: List.replicate 5 (Event.gpio_get DONE_B_PIN false)) = []) ∧
    ((∃ s', pi_write latchPeer 5 0x1234 0x56 (State.boot []) = .unfinished s' ∧
        s'.success = (State.boot []).success ∧ s'.pending_b = false ∧
        s'.key_matrix = (State.boot []).key_matrix) ∧
      (0 < 5 → pi_write latchPeer 5 0x1234 0x56 (State.boot []) = .unfinished
        { State.boot [] with
            pending_b := false,
            trace := (State.boot []).trace ++ Event.gpio_put PENDING_B_PIN false
              :: (List.replicate 0 (Event.gpio_get DONE_B_PIN false)
              ++ Event.gpio_get DONE_B_PIN true
              :: Event.spi_write_blocking (pi_write_bytes 0x1234 0x56)
              :: List.replicate 5 (Event.gpio_get DONE_B_PIN true)) })) :=
  ⟨(pi_write_fail_stop deadPeer 0x1234 0x56 (State.boot [])).1 (fun _ => rfl) 5,
   (pi_write_fail_stop latchPeer 0x1234 0x56 (State.boot [])).2 0
      (fun i hi => absurd hi (Nat.not_lt_zero i)) (by decide)
      (fun k => by simp [latchPeer]) 5⟩

/-- C3, as the code has it: for a base address `start` (taken as a `uint16_t`),
a 16-bit length `n` and `n` source bytes, `copy_rom` returns whenever the peer is responsive, and a call
that returns has issued exactly `n` bus writes, the `i`-th with address
`(start + i) mod 2 ^ 16` (the address is cut to the `uint16_t` parameter of
`pi_write`) and the `i`-th source byte as data.  When the image ends at or
below `0x10000` (`start + n ≤ 2 ^ 16`) the addresses are `start .. start+n-1`
and strictly ascending. -/
theorem copy_rom_writes (env : Env) (fuel : Nat) (pRom : List Nat) (start n : Nat) (s : State)
    (hn : n < 2 ^ 16) (hl : pRom.length = n) (hb : ByteList pRom) :
    (Responsive env fuel → ∃ s', copy_rom env fuel pRom start n s = .returned s') ∧
    (∀ s', copy_rom env fuel pRom start n s = .returned s' →
      ∃ tr, s'.trace = s.trace ++ tr ∧
        busWrites tr = ((List.range' start n).map (· % 2 ^ 16)).zip pRom ∧
        (busWrites tr).length = n ∧
        (start + n ≤ 2 ^ 16 →
          busWrites tr = (List.range' start n).zip pRom ∧
          List.Pairwise (· < ·) ((busWrites tr).map Prod.fst))) := by
  refine ⟨fun hr => total_copy_rom env fuel hr pRom start n s, ?_⟩
  intro s' h
  obtain ⟨_, _, tr, h1, h2, _⟩ := eff_copy_rom _ _ _ _ _ _ _ h
  subst hl
  rw [copyWrites_eq_romWrites start pRom hn hb] at h2
  refine ⟨tr, h1, h2, by rw [h2, romWrites_length], ?_⟩
  intro hfit
  have hmap : (List.range' start pRom.length).map (· % 2 ^ 16) = List.range' start pRom.length := by
    conv_rhs => rw [← List.map_id (List.range' start pRom.length)]
    apply List.map_congr_left
    intro a ha
    rw [List.mem_range'_1] at ha
    exact Nat.mod_eq_of_lt (by omega)
  have h3 : busWrites tr = (List.range' start pRom.length).zip pRom := by
    rw [h2, romWrites, hmap]
  refine ⟨h3, ?_⟩
  rw [h3, List.map_fst_zip _ _ (by simp)]
  exact List.pairwise_lt_range' start pRom.length

theorem copy_rom_writes_witness :
    (∃ s', copy_rom promptPeer 1 [0xAA, 0xBB, 0xCC, 0xDD] 0x1000 4 (State.boot [])
      = .returned s') ∧
    ∃ tr, (copy_rom promptPeer 1 [0xAA, 0xBB, 0xCC, 0xDD] 0x1000 4 (State.boot [])).state.trace
        = (State.boot []).trace ++ tr ∧
      busWrites tr = [(0x1000, 0xAA), (0x1001, 0xBB), (0x1002, 0xCC), (0x1003, 0xDD)] := by
  have key := copy_rom_writes promptPeer 1 [0xAA, 0xBB, 0xCC, 0xDD] 0x1000 4 (State.boot [])
    (by decide) rfl (by unfold ByteList; decide)
  refine ⟨key.1 (promptPeer_responsive 1 (by decide)), ?_⟩
  obtain ⟨tr, h1, _, _, h4⟩ := key.2
    (copy_rom promptPeer 1 [0xAA, 0xBB, 0xCC, 0xDD] 0x1000 4 (State.boot [])).state (by decide)
  exact ⟨tr, h1, (h4 (by decide)).1⟩

/-- C3 as stated fails for an image that runs past `0xFFFF`: uploading two
bytes at `0xFFFF` writes to `0xFFFF` and then to `0x0000`, which is neither
`start + 1` nor above the first address. -/
theorem copy_rom_wraps_address :
    ∃ s', copy_rom promptPeer 1 [0x11, 0x22] 0xFFFF 2 (State.boot []) = .returned s' ∧
      busWrites s'.trace = [(0xFFFF, 0x11), (0x0000, 0x22)] :=
  ⟨(copy_rom promptPeer 1 [0x11, 0x22] 0xFFFF 2 (State.boot [])).state, by decide, by decide⟩

theorem init_setup_eq (s : State) :
    init_setup s = { s with pending_b := true, trace := s.trace ++ setupEvents } := by
  simp [init_setup, emit, gpio_put, sleep_ms, setupEvents]

theorem eff_init_bus (env : Env) (fuel : Nat) (roms : Roms) (s s' : State)
    (h : init_bus env fuel roms s = .returned s') :
    Eff ([(0xE80F, 0), (0xE80F, 3)] ++ uploadWrites roms ++ [(0xE80F, 0), (0xE80F, 3)]) s s' := by
  unfold init_bus at h
  simp only [bind_returned] at h
  obtain ⟨s1, h1, s2, h2, s3, h3, s4, h4, s5, h5, s6, h6, s7, h7, s8, h8, s9, h9, h10⟩ := h
  have e1 := eff_set_cpu _ _ _ _ _ _ h1
  have e2 := eff_set_cpu _ _ _ _ _ _ h2
  have e3 := eff_copy_rom _ _ _ _ _ _ _ h3
  have e4 := eff_copy_rom _ _ _ _ _ _ _ h4
  have e5 := eff_copy_rom _ _ _ _ _ _ _ h5
  have e6 := eff_copy_rom _ _ _ _ _ _ _ h6
  have e7 := eff_copy_rom _ _ _ _ _ _ _ h7
  have e8 := eff_copy_rom _ _ _ _ _ _ _ h8
  have e9 := eff_set_cpu _ _ _ _ _ _ h9
  have e10 := eff_set_cpu _ _ _ _ _ _ h10
  have := eff_trans _ _ _ _ _ (eff_trans _ _ _ _ _ (eff_trans _ _ _ _ _ (eff_trans _ _ _ _ _
    (eff_trans _ _ _ _ _ (eff_trans _ _ _ _ _ (eff_trans _ _ _ _ _ (eff_trans _ _ _ _ _
    (eff_trans _ _ _ _ _ e1 e2) e3) e4) e5) e6) e7) e8) e9) e10
  simpa [uploadWrites, List.append_assoc] using this

theorem total_init_bus (env : Env) (fuel : Nat) (hr : Responsive env fuel) (roms : Roms)
    (s : State) : ∃ s', init_bus env fuel roms s = .returned s' := by
  unfold init_bus
  obtain ⟨s1, h1⟩ := total_set_cpu env fuel hr true false s
  obtain ⟨s2, h2⟩ := total_set_cpu env fuel hr false true s1
  obtain ⟨s3, h3⟩ := total_copy_rom env fuel hr roms.rom_chars_8800 0x8800
    roms.rom_chars_8800.length s2
  obtain ⟨s4, h4⟩ := total_copy_rom env fuel hr roms.rom_basic_b000 0xb000
    roms.rom_basic_b000.length s3
  obtain ⟨s5, h5⟩ := total_copy_rom env fuel hr roms.rom_basic_c000 0xc000
    roms.rom_basic_c000.length s4
  obtain ⟨s6, h6⟩ := total_copy_rom env fuel hr roms.rom_basic_d000 0xd000
    roms.rom_basic_d000.length s5
  obtain ⟨s7, h7⟩ := total_copy_rom env fuel hr roms.rom_edit_e000 0xe000
    roms.rom_edit_e000.length s6
  obtain ⟨s8, h8⟩ := total_copy_rom env fuel hr roms.rom_kernal_f000 0xf000
    roms.rom_kernal_f000.length s7
  obtain ⟨s9, h9⟩ := total_set_cpu env fuel hr true false s8
  obtain ⟨s10, h10⟩ := total_set_cpu env fuel hr false true s9
  exact ⟨s10, by rw [h1, bind_ret, h2, bind_ret, h3, bind_ret, h4, bind_ret, h5, bind_ret,
    h6, bind_ret, h7, bind_ret, h8, bind_ret, h9, bind_ret, h10]⟩

theorem busWrites_setupEvents : busWrites setupEvents = [] := by decide

theorem init_writes (env : Env) (fuel : Nat) (roms : Roms) (s s' : State)
    (h : init env fuel roms s = .returned s') :
    ∃ tr, s'.trace = s.trace ++ tr ∧
      busWrites tr = [(0xE80F, 0), (0xE80F, 3)] ++ uploadWrites roms ++ [(0xE80F, 0), (0xE80F, 3)] := by
  unfold init at h
  obtain ⟨_, _, tr, h1, h2, _⟩ := eff_init_bus _ _ _ _ _ h
  refine ⟨setupEvents ++ tr, ?_, ?_⟩
  · rw [h1, init_setup_eq]
    simp
  · rw [busWrites_append, busWrites_setupEvents, h2]
    rfl

theorem uploadWrites_eq (roms : Roms) (hfit : roms.Fit) (hb : roms.Bytes) :
    uploadWrites roms =
      romWrites 0x8800 roms.rom_chars_8800 ++ romWrites 0xb000 roms.rom_basic_b000
        ++ romWrites 0xc000 roms.rom_basic_c000 ++ romWrites 0xd000 roms.rom_basic_d000
        ++ romWrites 0xe000 roms.rom_edit_e000 ++ romWrites 0xf000 roms.rom_kernal_f000 := by
  obtain ⟨f1, f2, f3, f4, f5, f6⟩ := hfit
  obtain ⟨b1, b2, b3, b4, b5, b6⟩ := hb
  simp only [uploadWrites, copyWrites_eq_romWrites _ _ f1 b1, copyWrites_eq_romWrites _ _ f2 b2,
    copyWrites_eq_romWrites _ _ f3 b3, copyWrites_eq_romWrites _ _ f4 b4,
    copyWrites_eq_romWrites _ _ f5 b5, copyWrites_eq_romWrites _ _ f6 b6]

/-- C5, as the code has it: for every choice of the six ROM images whose
lengths fit the `uint16_t byteLength` of `copy_rom` (they are below `2 ^ 16`),
`init` returns whenever the peer is responsive, and an `init` that returns has
issued exactly these bus writes, in this order: `(0xE80F, 0x00)`,
`(0xE80F, 0x03)`, the upload writes of the images at `0x8800`, `0xB000`,
`0xC000`, `0xD000`, `0xE000`, `0xF000` in this order, `(0xE80F, 0x00)`,
`(0xE80F, 0x03)`; that is `4 +` the sum of the six lengths writes. -/
theorem init_bus_writes (env : Env) (fuel : Nat) (roms : Roms) (s : State)
    (hfit : roms.Fit) (hb : roms.Bytes) :
    (Responsive env fuel → ∃ s', init env fuel roms s = .returned s') ∧
    (∀ s', init env fuel roms s = .returned s' →
      ∃ tr, s'.trace = s.trace ++ tr ∧
        busWrites tr = [(0xE80F, 0x00), (0xE80F, 0x03)]
          ++ romWrites 0x8800 roms.rom_chars_8800 ++ romWrites 0xb000 roms.rom_basic_b000
          ++ romWrites 0xc000 roms.rom_basic_c000 ++ romWrites 0xd000 roms.rom_basic_d000
          ++ romWrites 0xe000 roms.rom_edit_e000 ++ romWrites 0xf000 roms.rom_kernal_f000
          ++ [(0xE80F, 0x00), (0xE80F, 0x03)] ∧
        (busWrites tr).length = 4 + (roms.rom_chars_8800.length + roms.rom_basic_b000.length
          + roms.rom_basic_c000.length + roms.rom_basic_d000.length
          + roms.rom_edit_e000.length + roms.rom_kernal_f000.length)) := by
  refine ⟨fun hr => total_init_bus env fuel hr roms (init_setup s), ?_⟩
  intro s' h
  obtain ⟨tr, h1, h2⟩ := init_writes _ _ _ _ _ h
  rw [uploadWrites_eq roms hfit hb] at h2
  refine ⟨tr, h1, by simpa [List.append_assoc] using h2, ?_⟩
  rw [h2]
  simp only [List.length_append, romWrites_length, List.length_cons, List.length_nil]
  omega

theorem init_bus_writes_witness :
    (∃ s', init promptPeer 1 demoRoms (State.boot []) = .returned s') ∧
    ∃ tr, (init promptPeer 1 demoRoms (State.boot [])).state.trace = (State.boot []).trace ++ tr ∧
      busWrites tr = [(0xE80F, 0x00), (0xE80F, 0x03)]
        ++ romWrites 0x8800 demoRoms.rom_chars_8800 ++ romWrites 0xb000 demoRoms.rom_basic_b000
        ++ romWrites 0xc000 demoRoms.rom_basic_c000 ++ romWrites 0xd000 demoRoms.rom_basic_d000
        ++ romWrites 0xe000 demoRoms.rom_edit_e000 ++ romWrites 0xf000 demoRoms.rom_kernal_f000
        ++ [(0xE80F, 0x00), (0xE80F, 0x03)] ∧
      (busWrites tr).length = 4 + (demoRoms.rom_chars_8800.length + demoRoms.rom_basic_b000.length
        + demoRoms.rom_basic_c000.length + demoRoms.rom_basic_d000.length
        + demoRoms.rom_edit_e000.length + demoRoms.rom_kernal_f000.length) :=
  ⟨(init_bus_writes promptPeer 1 demoRoms (State.boot [])
      (by unfold Roms.Fit; decide) (by unfold Roms.Bytes ByteList; decide)).1
      (promptPeer_responsive 1 (by decide)),
   (init_bus_writes promptPeer 1 demoRoms (State.boot [])
      (by unfold Roms.Fit; decide) (by unfold Roms.Bytes ByteList; decide)).2
      (init promptPeer 1 demoRoms (State.boot [])).state (by decide)⟩

theorem copy_rom_len_65536 (env : Env) (fuel : Nat) (pRom : List Nat) (start : Nat) (s : State) :
    copy_rom env fuel pRom start 65536 s = .returned s := by
  simp [copy_rom, copy_rom_loop]

theorem copy_rom_len_0 (env : Env) (fuel : Nat) (pRom : List Nat) (start : Nat) (s : State) :
    copy_rom env fuel pRom start 0 s = .returned s := by
  simp [copy_rom, copy_rom_loop]

theorem init_longRoms (env : Env) (fuel : Nat) (s : State) :
    init env fuel longRoms s = init env fuel emptyRoms s := by
  simp only [init, init_bus, longRoms, emptyRoms, List.length_replicate, List.length_nil,
    copy_rom_len_65536, copy_rom_len_0]

/-- C5 as stated fails for an image of 65536 bytes: `sizeof` is cut to the
`uint16_t byteLength`, here `0`, so `init` issues the four control writes and
no upload write at all, not `4 + 65536` writes. -/
theorem init_drops_long_image :
    ∃ s', init promptPeer 1 longRoms (State.boot []) = .returned s' ∧
      busWrites s'.trace = [(0xE80F, 0x00), (0xE80F, 0x03), (0xE80F, 0x00), (0xE80F, 0x03)] ∧
      (busWrites s'.trace).length ≠ 4 + (longRoms.rom_chars_8800.length + 0 + 0 + 0 + 0 + 0) :=
  ⟨(init promptPeer 1 emptyRoms (State.boot [])).state,
    (init_longRoms promptPeer 1 (State.boot [])).trans (by decide), by decide,
    by rw [show longRoms.rom_chars_8800.length = 65536 from List.length_replicate _ _]; decide⟩

/-- C6, as the code has it: in the writes of an `init` that returns, two
CPU-control writes precede the first upload write, the reset-halt write
`(0xE80F, 0x00)` and then the reset-release write `(0xE80F, 0x03)`, and the
second reset-halt and reset-release writes follow the last upload write.  So
for every upload write before which no upload write went to `0xE80F` itself,
the most recent preceding write to `0xE80F` has data `3`, whose bit 0
(`reset_b`) is 1: the uploads run with the CPU released, not held in reset. -/
theorem init_uploads_after_release (env : Env) (fuel : Nat) (roms : Roms) (s s' : State)
    (h : init env fuel roms s = .returned s') :
    ∃ tr, s'.trace = s.trace ++ tr ∧
      busWrites tr = (0xE80F, 0x00) :: (0xE80F, 0x03)
        :: (uploadWrites roms ++ [(0xE80F, 0x00), (0xE80F, 0x03)]) ∧
      ∀ i, i < (uploadWrites roms).length →
        (∀ w ∈ (uploadWrites roms).take i, w.1 ≠ 0xE80F) →
        ∃ d, lastCtl ((busWrites tr).take (2 + i)) = some d ∧ d = 3 ∧ d.testBit 0 = true := by
  obtain ⟨tr, h1, h2⟩ := init_writes _ _ _ _ _ h
  refine ⟨tr, h1, by simpa [List.append_assoc] using h2, ?_⟩
  intro i hi hne
  refine ⟨3, ?_, rfl, by decide⟩
  have htake : (busWrites tr).take (2 + i)
      = (0xE80F, 0) :: (0xE80F, 3) :: (uploadWrites roms).take i := by
    rw [h2, Nat.add_comm 2 i]
    simp only [List.cons_append, List.nil_append, List.append_assoc, List.take_succ_cons]
    rw [List.take_append_of_le_length (Nat.le_of_lt hi)]
  have hfil : ((uploadWrites roms).take i).filter (fun w => decide (w.1 = 0xE80F)) = [] := by
    rw [List.filter_eq_nil_iff]
    intro w hw
    simpa using hne w hw
  rw [htake, lastCtl]
  simp [List.filter_cons, hfil]

theorem init_uploads_after_release_witness :
    ∃ tr, (init promptPeer 1 demoRoms (State.boot [])).state.trace = (State.boot []).trace ++ tr ∧
      busWrites tr = (0xE80F, 0x00) :: (0xE80F, 0x03)
        :: (uploadWrites demoRoms ++ [(0xE80F, 0x00), (0xE80F, 0x03)]) ∧
      ∀ i, i < (uploadWrites demoRoms).length →
        (∀ w ∈ (uploadWrites demoRoms).take i, w.1 ≠ 0xE80F) →
        ∃ d, lastCtl ((busWrites tr).take (2 + i)) = some d ∧ d = 3 ∧ d.testBit 0 = true :=
  init_uploads_after_release promptPeer 1 demoRoms (State.boot [])
    (init promptPeer 1 demoRoms (State.boot [])).state (by decide)

/-- C6 as stated fails: with a one-byte first image the writes of `init` are
reset-halt, reset-release, the upload write, reset-halt, reset-release, so the
write to `0xE80F` most recently before the upload write is the reset-release
write, data `3`, bit 0 (`reset_b`) equal to 1, not 0. -/
theorem init_uploads_not_in_reset :
    ∃ s', init promptPeer 1 oneByteRoms (State.boot []) = .returned s' ∧
      busWrites s'.trace
        = [(0xE80F, 0x00), (0xE80F, 0x03), (0x8800, 0x55), (0xE80F, 0x00), (0xE80F, 0x03)] ∧
      lastCtl ((busWrites s'.trace).take 2) = some 3 ∧ Nat.testBit 3 0 = true :=
  ⟨(init promptPeer 1 oneByteRoms (State.boot [])).state, by decide, by decide, by decide,
    by decide⟩

/-! ## The keyboard loop -/

theorem eff_key_rows (env : Env) (fuel : Nat) :
    ∀ (n m row : Nat) (s s' : State), s.key_matrix.length ≤ 255 →
      row + m = s.key_matrix.length →
      key_rows env fuel n row s = .returned s' →
      Eff ((List.range m).map fun i =>
        (0xe800 + (row + i), s.key_matrix.getD (row + i) 0 % 2 ^ 8)) s s' := by
  intro n
  induction n with
  | zero => intro m row s s' _ _ h; simp [key_rows] at h
  | succ n ih =>
    intro m row s s' hlen hm h
    by_cases hlt : row < s.key_matrix.length
    · obtain ⟨m', rfl⟩ : ∃ m', m = m' + 1 := ⟨m - 1, by omega⟩
      simp only [key_rows, hlt, if_true, bind_returned] at h
      obtain ⟨s1, h1, h2⟩ := h
      have e1 := eff_pi_write _ _ _ _ _ _ h1
      have hk : s1.key_matrix = s.key_matrix := e1.2.1
      have hrow : (row + 1) % 2 ^ 8 = row + 1 := Nat.mod_eq_of_lt (by omega)
      rw [hrow] at h2
      have e2 := ih m' (row + 1) s1 s' (by rw [hk]; exact hlen) (by rw [hk]; omega) h2
      rw [hk] at e2
      have haddr : (0xe800 + row) % 2 ^ 16 = 0xe800 + row := Nat.mod_eq_of_lt (by omega)
      rw [haddr] at e1
      have := eff_trans _ _ _ _ _ e1 e2
      simpa [List.range_succ_eq_map, List.map_map, Function.comp_def, Nat.add_assoc,
        Nat.add_comm 1] using this
    · simp only [key_rows, hlt, if_false] at h
      injection h with h
      subst h
      obtain rfl : m = 0 := by omega
      exact eff_refl s

theorem window_no_usb (j k : Nat) (bytes : List Nat) : Event.tuh_task ∉ window j k bytes := by
  simp [window, List.mem_replicate]

theorem quiet_key_rows (env : Env) (fuel : Nat) :
    ∀ (n row : Nat) (s s' : State), key_rows env fuel n row s = .returned s' →
      ∃ tr, s'.trace = s.trace ++ tr ∧ Event.tuh_task ∉ tr := by
  intro n
  induction n with
  | zero => intro row s s' h; simp [key_rows] at h
  | succ n ih =>
    intro row s s' h
    by_cases hlt : row < s.key_matrix.length
    · simp only [key_rows, hlt, if_true, bind_returned] at h
      obtain ⟨s1, h1, h2⟩ := h
      obtain ⟨j, k, _, _, rfl⟩ := pi_write_returned _ _ _ _ _ _ h1
      obtain ⟨tr, h3, h4⟩ := ih _ _ _ h2
      refine ⟨window j k _ ++ tr, by rw [h3, List.append_assoc], ?_⟩
      simp only [List.mem_append, not_or]
      exact ⟨window_no_usb _ _ _, h4⟩
    · simp only [key_rows, hlt, if_false] at h
      injection h with h
      subst h
      exact ⟨[], by simp, by simp⟩

theorem total_key_rows (env : Env) (fuel : Nat) (hr : Responsive env fuel) :
    ∀ (n m row : Nat) (s : State), s.key_matrix.length ≤ 255 →
      row + m = s.key_matrix.length → m < n →
      ∃ s', key_rows env fuel n row s = .returned s' ∧ s'.key_matrix = s.key_matrix := by
  intro n
  induction n with
  | zero => intro m row s _ _ h; omega
  | succ n ih =>
    intro m row s hlen hm hn
    by_cases hlt : row < s.key_matrix.length
    · obtain ⟨s1, h1⟩ := pi_write_responsive env fuel hr (0xe800 + row)
        (s.key_matrix.getD row 0) s
      have hk : s1.key_matrix = s.key_matrix := (eff_pi_write _ _ _ _ _ _ h1).2.1
      have hrow : (row + 1) % 2 ^ 8 = row + 1 := Nat.mod_eq_of_lt (by omega)
      obtain ⟨s2, h2, hk2⟩ := ih (m - 1) (row + 1) s1 (by rw [hk]; exact hlen)
        (by rw [hk]; omega) (by omega)
      refine ⟨s2, ?_, by rw [hk2, hk]⟩
      simp only [key_rows, hlt, if_true, h1, bind_ret, hrow, h2]
    · exact ⟨s, by simp only [key_rows, hlt, if_false], rfl⟩

theorem key_rows_spins (env : Env) (fuel : Nat) :
    ∀ (n row : Nat) (s s' : State), 256 ≤ s.key_matrix.length → row < 256 →
      key_rows env fuel n row s ≠ .returned s' := by
  intro n
  induction n with
  | zero => intro row s s' _ _ h; simp [key_rows] at h
  | succ n ih =>
    intro row s s' hlen hrow h
    have hlt : row < s.key_matrix.length := by omega
    simp only [key_rows, hlt, if_true, bind_returned] at h
    obtain ⟨s1, h1, h2⟩ := h
    have hk : s1.key_matrix = s.key_matrix := (eff_pi_write _ _ _ _ _ _ h1).2.1
    exact ih ((row + 1) % 2 ^ 8) s1 s' (by rw [hk]; exact hlen)
      (Nat.mod_lt _ (by decide)) h2

theorem range_map_eq_zip (a : Nat) (km : List Nat) (hb : ByteList km) :
    ((List.range km.length).map fun i => (a + i, km.getD i 0 % 2 ^ 8))
      = (List.range' a km.length).zip km := by
  induction km generalizing a with
  | nil => rfl
  | cons b bs ih =>
    have hb' : ByteList bs := fun x hx => hb x (List.mem_cons_of_mem _ hx)
    have hlt : b < 256 := by have := hb b (List.mem_cons_self _ _); omega
    have := ih (a + 1) hb'
    simp only [List.length_cons, List.range_succ_eq_map, List.map_cons, List.map_map,
      List.range'_succ, List.zip_cons_cons, ← this]
    simp [Function.comp_def, Nat.mod_eq_of_lt hlt, Nat.add_assoc, Nat.add_comm 1]

/-- C8, as the code has it: `row` is a `uint8_t`, so the claim holds for a
keyboard of at most 255 rows.  For such a `key_matrix` (as `tuh_task` leaves
it), an iteration of the loop of `main` returns whenever the peer is
responsive and the budget covers the rows, and an iteration that returns has
added to the trace one `tuh_task` event first and then events with no
`tuh_task` among them that carry exactly `N` bus writes, the `k`-th being
`(0xE800 + k, key_matrix[k])`, in ascending row order. -/
theorem main_iteration_publishes (env : Env) (fuel : Nat) (s : State)
    (hN : (env.usb s.trace s.key_matrix).length ≤ 255)
    (hb : ByteList (env.usb s.trace s.key_matrix)) :
    (Responsive env fuel → (env.usb s.trace s.key_matrix).length < fuel →
      ∃ s', main_iteration env fuel s = .returned s') ∧
    (∀ s', main_iteration env fuel s = .returned s' →
      ∃ tr, s'.trace = s.trace ++ Event.tuh_task :: tr ∧ Event.tuh_task ∉ tr ∧
        busWrites tr = (List.range' 0xE800 (env.usb s.trace s.key_matrix).length).zip
          (env.usb s.trace s.key_matrix)) := by
  constructor
  · intro hr hf
    obtain ⟨s', h, _⟩ := total_key_rows env fuel hr fuel (env.usb s.trace s.key_matrix).length 0
      (tuh_task env s) hN (by simp [tuh_task, emit]) hf
    exact ⟨s', h⟩
  · intro s' h
    unfold main_iteration at h
    obtain ⟨_, _, tr, h1, h2, _⟩ := eff_key_rows env fuel fuel
      (env.usb s.trace s.key_matrix).length 0 (tuh_task env s) s' hN
      (by simp [tuh_task, emit]) h
    obtain ⟨tr', h3, h4⟩ := quiet_key_rows env fuel fuel 0 (tuh_task env s) s' h
    obtain rfl : tr = tr' := List.append_cancel_left (h1.symm.trans h3)
    refine ⟨tr, by rw [h1]; simp [tuh_task, emit], h4, ?_⟩
    rw [h2]
    have := range_map_eq_zip 0xE800 (env.usb s.trace s.key_matrix) hb
    simpa [tuh_task, emit] using this

theorem main_iteration_publishes_witness :
    (∃ s', main_iteration promptPeer 4 (State.boot [7, 8, 9]) = .returned s') ∧
    ∃ tr, (main_iteration promptPeer 4 (State.boot [7, 8, 9])).state.trace
        = (State.boot [7, 8, 9]).trace ++ Event.tuh_task :: tr ∧ Event.tuh_task ∉ tr ∧
      busWrites tr = (List.range' 0xE800
          (promptPeer.usb (State.boot [7, 8, 9]).trace (State.boot [7, 8, 9]).key_matrix).length).zip
        (promptPeer.usb (State.boot [7, 8, 9]).trace (State.boot [7, 8, 9]).key_matrix) :=
  ⟨(main_iteration_publishes promptPeer 4 (State.boot [7, 8, 9]) (by decide)
      (by unfold ByteList; decide)).1 (promptPeer_responsive 4 (by decide)) (by decide),
   (main_iteration_publishes promptPeer 4 (State.boot [7, 8, 9]) (by decide)
      (by unfold ByteList; decide)).2
      (main_iteration promptPeer 4 (State.boot [7, 8, 9])).state (by decide)⟩

/-- C8 as stated fails for a keyboard of 256 rows: `row` wraps from 255 to 0
and the test `row < sizeof(key_matrix)` never fails, so no budget lets the
iteration end; it goes on writing past the 256th write. -/
theorem main_iteration_256_rows_never_ends :
    ¬ ∃ fuel s', main_iteration promptPeer fuel (State.boot (List.replicate 256 0))
        = .returned s' := by
  rintro ⟨fuel, s', h⟩
  exact key_rows_spins promptPeer fuel fuel 0 _ s'
    (by show 256 ≤ (List.replicate 256 0).length; rw [List.length_replicate]) (by decide) h

/-! ## The handshake discipline over whole runs -/

theorem disc_prepend (s s1 : State) (t1 : List Event) (e1 : s1.trace = s.trace ++ t1)
    (c1 : Clean t1) (r : Result) (h : Disciplined s1 r) : Disciplined s r := by
  obtain ⟨t2, e2, c2⟩ := h
  refine ⟨t1 ++ t2, by rw [e2, e1, List.append_assoc], ?_⟩
  cases r with
  | returned s2 => exact clean_append _ _ c1 c2
  | unfinished s2 =>
    simp only at c2 ⊢
    simpa [handshake_append, c1.1] using c2

theorem disc_of_eff (ws : List (Nat × Nat)) (s s' : State) (h : Eff ws s s') :
    Disciplined s (.returned s') := by
  obtain ⟨_, _, tr, h1, _, h2⟩ := h
  exact ⟨tr, h1, h2⟩

theorem disc_of_cut (s s' : State) (h : Cut s s') : Disciplined s (.unfinished s') := h

theorem disc_bind (s : State) (r : Result) (f : State → Result) (h1 : Disciplined s r)
    (h2 : ∀ s1, r = .returned s1 → Disciplined s1 (f s1)) : Disciplined s (r.bind f) := by
  cases r with
  | unfinished s1 => exact h1
  | returned s1 =>
    obtain ⟨t1, e1, c1⟩ := h1
    exact disc_prepend s s1 t1 e1 c1 _ (h2 s1 rfl)

theorem disc_pi_write (env : Env) (fuel addr data : Nat) (s : State) :
    Disciplined s (pi_write env fuel addr data s) := by
  cases h : pi_write env fuel addr data s with
  | returned s' => exact disc_of_eff _ _ _ (eff_pi_write _ _ _ _ _ _ h)
  | unfinished s' => exact disc_of_cut _ _ (cut_pi_write _ _ _ _ _ _ h)

theorem disc_set_cpu (env : Env) (fuel : Nat) (reset run : Bool) (s : State) :
    Disciplined s (set_cpu env fuel reset run s) := by
  cases h : set_cpu env fuel reset run s with
  | returned s' => exact disc_of_eff _ _ _ (eff_set_cpu _ _ _ _ _ _ h)
  | unfinished s' => exact disc_of_cut _ _ (cut_set_cpu _ _ _ _ _ _ h)

theorem disc_copy_rom (env : Env) (fuel : Nat) (pRom : List Nat) (start byteLength : Nat)
    (s : State) : Disciplined s (copy_rom env fuel pRom start byteLength s) := by
  cases h : copy_rom env fuel pRom start byteLength s with
  | returned s' => exact disc_of_eff _ _ _ (eff_copy_rom _ _ _ _ _ _ _ h)
  | unfinished s' => exact disc_of_cut _ _ (cut_copy_rom _ _ _ _ _ _ _ h)

theorem disc_init_bus (env : Env) (fuel : Nat) (roms : Roms) (s : State) :
    Disciplined s (init_bus env fuel roms s) := by
  unfold init_bus
  refine disc_bind _ _ _ (disc_set_cpu _ _ _ _ _) fun s1 _ => ?_
  refine disc_bind _ _ _ (disc_set_cpu _ _ _ _ _) fun s2 _ => ?_
  refine disc_bind _ _ _ (disc_copy_rom _ _ _ _ _ _) fun s3 _ => ?_
  refine disc_bind _ _ _ (disc_copy_rom _ _ _ _ _ _) fun s4 _ => ?_
  refine disc_bind _ _ _ (disc_copy_rom _ _ _ _ _ _) fun s5 _ => ?_
  refine disc_bind _ _ _ (disc_copy_rom _ _ _ _ _ _) fun s6 _ => ?_
  refine disc_bind _ _ _ (disc_copy_rom _ _ _ _ _ _) fun s7 _ => ?_
  refine disc_bind _ _ _ (disc_copy_rom _ _ _ _ _ _) fun s8 _ => ?_
  refine disc_bind _ _ _ (disc_set_cpu _ _ _ _ _) fun s9 _ => ?_
  exact disc_set_cpu _ _ _ _ _

theorem disc_key_rows (env : Env) (fuel : Nat) :
    ∀ (n row : Nat) (s : State), Disciplined s (key_rows env fuel n row s) := by
  intro n
  induction n with
  | zero => intro row s; exact ⟨[], by simp [key_rows, Result.state], by simp [key_rows, handshake]⟩
  | succ n ih =>
    intro row s
    by_cases hlt : row < s.key_matrix.length
    · simp only [key_rows, hlt, if_true]
      exact disc_bind _ _ _ (disc_pi_write _ _ _ _ _) fun s1 _ => ih _ s1
    · simp only [key_rows, hlt, if_false]
      exact disc_of_eff _ _ _ (eff_refl s)

theorem disc_main_iteration (env : Env) (fuel : Nat) (s : State) :
    Disciplined s (main_iteration env fuel s) := by
  unfold main_iteration
  exact disc_prepend s (tuh_task env s) [Event.tuh_task] rfl (clean_other Event.tuh_task rfl) _
    (disc_key_rows env fuel fuel 0 _)

theorem disc_main_loop (env : Env) (fuel : Nat) :
    ∀ (n : Nat) (s : State), Disciplined s (main_loop env fuel n s) := by
  intro n
  induction n with
  | zero => intro s; exact disc_of_eff _ _ _ (eff_refl s)
  | succ n ih =>
    intro s
    simp only [main_loop]
    exact disc_bind _ _ _ (disc_main_iteration _ _ _) fun s1 _ => ih s1

theorem disc_main (env : Env) (fuel : Nat) (roms : Roms) (n : Nat) (s : State) :
    Disciplined (init_setup s) (main env fuel roms n s) := by
  unfold main init
  refine disc_bind _ _ _ (disc_init_bus _ _ _ _) fun s1 _ => ?_
  exact disc_prepend s1 (emit Event.video_init (emit Event.usb_init s1))
    [Event.usb_init, Event.video_init] (by simp [emit])
    (clean_append _ _ (clean_other Event.usb_init rfl) (clean_other Event.video_init rfl)) _ (disc_main_loop _ _ _ _)

theorem total_main_iteration (env : Env) (fuel : Nat) (hr : Responsive env fuel)
    (hu : ∀ h km, (env.usb h km).length = km.length) (s : State)
    (hN : s.key_matrix.length ≤ 255) (hf : s.key_matrix.length < fuel) :
    ∃ s', main_iteration env fuel s = .returned s' ∧
      s'.key_matrix.length = s.key_matrix.length := by
  have hk : (tuh_task env s).key_matrix.length = s.key_matrix.length := hu _ _
  obtain ⟨s', h, hk'⟩ := total_key_rows env fuel hr fuel s.key_matrix.length 0
    (tuh_task env s) (by rw [hk]; exact hN) (by rw [hk]; omega) hf
  exact ⟨s', h, by rw [hk', hk]⟩

theorem total_main_loop (env : Env) (fuel : Nat) (hr : Responsive env fuel)
    (hu : ∀ h km, (env.usb h km).length = km.length) :
    ∀ (n : Nat) (s : State), s.key_matrix.length ≤ 255 → s.key_matrix.length < fuel →
      ∃ s', main_loop env fuel n s = .returned s' := by
  intro n
  induction n with
  | zero => intro s _ _; exact ⟨s, rfl⟩
  | succ n ih =>
    intro s hN hf
    obtain ⟨s1, h1, hk⟩ := total_main_iteration env fuel hr hu s hN hf
    obtain ⟨s2, h2⟩ := ih s1 (by rw [hk]; exact hN) (by rw [hk]; exact hf)
    exact ⟨s2, by simp only [main_loop, h1, bind_ret, h2]⟩

theorem total_main (env : Env) (fuel : Nat) (hr : Responsive env fuel)
    (hu : ∀ h km, (env.usb h km).length = km.length) (roms : Roms) (n : Nat) (s : State)
    (hN : s.key_matrix.length ≤ 255) (hf : s.key_matrix.length < fuel) :
    ∃ s', main env fuel roms n s = .returned s' := by
  obtain ⟨s1, h1⟩ := total_init_bus env fuel hr roms (init_setup s)
  have hk : s1.key_matrix = s.key_matrix := by
    rw [(eff_init_bus _ _ _ _ _ h1).2.1, init_setup_eq]
  obtain ⟨s2, h2⟩ := total_main_loop env fuel hr hu n
    (emit Event.video_init (emit Event.usb_init s1))
    (by simpa [emit, hk] using hN) (by simpa [emit, hk] using hf)
  exact ⟨s2, by simp only [main, init, h1, bind_ret, h2]⟩

/-- C10: in every run of `main` (`init`, then any number `n` of loop
iterations), against any peer, what follows the set-up events of `init` (which
end with `PENDING_B_PIN` high and idle) keeps to the handshake: the monitor,
started idle, never rejects an event, so a request is only made when none is
out, a frame is only sent inside a request that has had none, and the request
is only released after its frame.  When the run has got to the end of the
`n`-th iteration the monitor is idle again and the handshake events are
exactly one request, frame, release triple per frame, in order.  Against a
responsive peer, with a keyboard of at most 255 rows that `tuh_task` does not
resize, the run does get there. -/
theorem main_one_write_in_flight (env : Env) (fuel : Nat) (roms : Roms) (n : Nat) (s : State) :
    (∃ tr, (main env fuel roms n s).state.trace = s.trace ++ setupEvents ++ tr ∧
      (handshake Phase.idle tr).isSome = true ∧
      (∀ s', main env fuel roms n s = .returned s' →
        handshake Phase.idle tr = some Phase.idle ∧
        hsEvents tr = (frames tr).flatMap cycle)) ∧
    (Responsive env fuel → (∀ h km, (env.usb h km).length = km.length) →
      s.key_matrix.length ≤ 255 → s.key_matrix.length < fuel →
      ∃ s', main env fuel roms n s = .returned s') := by
  refine ⟨?_, fun hr hu hN hf => total_main env fuel hr hu roms n s hN hf⟩
  obtain ⟨tr, h1, h2⟩ := disc_main env fuel roms n s
  refine ⟨tr, by rw [h1, init_setup_eq], ?_, ?_⟩
  · cases hm : main env fuel roms n s with
    | returned s' => rw [hm] at h2; simp [h2.1]
    | unfinished s' => rw [hm] at h2; exact h2
  · intro s' hm
    rw [hm] at h2
    exact h2

theorem main_one_write_in_flight_witness :
    ∃ s', main promptPeer 4 demoRoms 2 (State.boot [7, 8, 9]) = .returned s' :=
  (main_one_write_in_flight promptPeer 4 demoRoms 2 (State.boot [7, 8, 9])).2
    (promptPeer_responsive 4 (by decide)) (fun _ _ => rfl) (by decide) (by decide)
end PetFw
